import Mathlib

/-!
# casipw/email: the message serializer

A shallow embedding of `email.go`.  Go's `string` and `[]byte` are octet
sequences, modelled as `List (Fin 256)`.  A run-time panic (a slice expression
out of range) is the result `none`.

Library routines the serializer calls are treated in two ways.

* `encoding/base64` (`StdEncoding`), `mime.BEncoding.Encode`,
  `utf8.DecodeRuneInString` (its size result), `strings.Join`,
  `strings.HasPrefix`, `strings.Index`, `filepath.Ext` and `filepath.Split`
  are modelled by definitions below, because properties of the serializer and
  of the builder depend on what they compute.
* `mail.Address.String`, `time.Now().Format(time.RFC1123Z)` and
  `mime.TypeByExtension` are fields of `Env`: the serializer copies their
  results into the output verbatim.
* `ioutil.ReadFile` is a `FileSystem`, a function from paths to the contents
  of the file or the error of the read.
-/

namespace Email

/-! ## Octets and literals -/

abbrev Byte := Fin 256

abbrev Bytes := List Byte

/-- UTF-8 encoding of one character; Go source text is UTF-8, so this gives the
octets of a Go string literal. -/
def utf8Char (c : Char) : Bytes :=
  let n := c.toNat
  if n < 0x80 then [Fin.ofNat n]
  else if n < 0x800 then [Fin.ofNat (0xC0 + n / 64), Fin.ofNat (0x80 + n % 64)]
  else if n < 0x10000 then
    [Fin.ofNat (0xE0 + n / 4096), Fin.ofNat (0x80 + n / 64 % 64), Fin.ofNat (0x80 + n % 64)]
  else
    [Fin.ofNat (0xF0 + n / 262144), Fin.ofNat (0x80 + n / 4096 % 64),
     Fin.ofNat (0x80 + n / 64 % 64), Fin.ofNat (0x80 + n % 64)]

/-- Octets of a string literal. -/
def str (s : String) : Bytes := s.toList.flatMap utf8Char

/-- The double quote character. -/
def DQ : Bytes := [0x22]

/-- The line separator of `BytesLF`. -/
def LF : Bytes := [0x0A]

/-- The line separator of `BytesCRLF`. -/
def CRLF : Bytes := [0x0D, 0x0A]

/-- The two line separators `bytes` is called with. -/
inductive LineSep where
  | lf
  | crlf
  deriving DecidableEq, Repr

/-- Octets of a line separator. -/
def LineSep.toBytes : LineSep → Bytes
  | .lf => LF
  | .crlf => CRLF

/-! ## Data model -/

/-- Record `Attachment` of email.go. -/
structure Attachment where
  Filename : Bytes
  Data : Bytes
  Inline : Bool
  deriving DecidableEq, Repr

/-- Record `mail.Address` (display name and addr-spec). -/
structure Address where
  Name : Bytes
  Address : Bytes
  deriving DecidableEq, Repr

/-- Record `Message` of email.go.  `Attachments` is the Go map
`map[string]*Attachment`, given as its entries (key, value) in the order in
which `range` visits them in the run under consideration; Go leaves that order
unspecified, so every order is a possible one. -/
structure Message where
  From : Address
  To : List Bytes
  Cc : List Bytes
  Bcc : List Bytes
  ReplyTo : Bytes
  Subject : Bytes
  Body : Bytes
  BodyContentType : Bytes
  Attachments : List (Bytes × Attachment)
  deriving DecidableEq, Repr

/-- Results of the library calls whose text `bytes` copies into its output. -/
structure Env where
  /-- Result of `(mail.Address).String`. -/
  addressString : Address → Bytes
  /-- Result of `time.Now().Format(time.RFC1123Z)`. -/
  now : Bytes
  /-- Result of `mime.TypeByExtension`. -/
  typeByExtension : Bytes → Bytes

/-! ## Recipient list -/

/-- Method `ToList`: `make([]string, n)` allocates a slice of LENGTH `n`
(`n` empty strings) and the three `append`s add the recipients after them. -/
def Message.ToList (m : Message) : List Bytes :=
  let ToList : List Bytes := List.replicate (m.To.length + m.Cc.length + m.Bcc.length) []
  let ToList := ToList ++ m.To
  let ToList := ToList ++ m.Cc
  let ToList := ToList ++ m.Bcc
  ToList

/-! ## String helpers -/

/-- Go `strings.HasPrefix`. -/
def hasPrefix : Bytes → Bytes → Bool
  | _, [] => true
  | [], _ :: _ => false
  | c :: s, p :: ps => c == p && hasPrefix s ps

/-- Go `strings.Index(s, string(c))` for a one-octet pattern: `none` is -1. -/
def indexByte : Bytes → Byte → Option Nat
  | [], _ => none
  | x :: s, c => if x = c then some 0 else (indexByte s c).map (· + 1)

/-- Go `strings.Join`. -/
def join (elems : List Bytes) (sep : Bytes) : Bytes := sep.intercalate elems

/-- Go slice expression `s[:n]` on a slice whose capacity equals its length:
it panics (here `none`) when `n` exceeds the capacity. -/
def slicePrefix (s : Bytes) (n : Nat) : Option Bytes :=
  if n ≤ s.length then some (s.take n) else none

/-- Scan of `filepath.Ext` from the end of the path: the argument is the
reversed path, `acc` the octets already passed. -/
def extScan : Bytes → Bytes → Bytes
  | [], _ => []
  | c :: rest, acc =>
    if c = 0x2F then []
    else if c = 0x2E then c :: acc
    else extScan rest (c :: acc)

/-- Go `filepath.Ext` (separator `/`): the suffix beginning at the final dot of
the final path element, or empty. -/
def Ext (path : Bytes) : Bytes := extScan path.reverse []

/-! ## encoding/base64, StdEncoding -/

/-- Alphabet of `base64.StdEncoding`. -/
def encodeStd : Bytes :=
  str "ABCDEFGHIJKLMNOPQRSTUVWXYZabcdefghijklmnopqrstuvwxyz0123456789+/"

/-- Character of a six-bit value. -/
def b64Char (n : Nat) : Byte := encodeStd.getD n 0

/-- Padding character `=`. -/
def padChar : Byte := 0x3D

/-- Result of `base64.StdEncoding.Encode`: every three octets give the 24-bit value
`a<<16 | b<<8 | c`, written as four characters; one or two remaining octets
give two or three characters and padding. -/
def base64Encode : Bytes → Bytes
  | a :: b :: c :: rest =>
    let val := a.val * 65536 + b.val * 256 + c.val
    b64Char (val / 262144 % 64) :: b64Char (val / 4096 % 64) ::
      b64Char (val / 64 % 64) :: b64Char (val % 64) :: base64Encode rest
  | [a, b] =>
    let val := a.val * 65536 + b.val * 256
    [b64Char (val / 262144 % 64), b64Char (val / 4096 % 64), b64Char (val / 64 % 64), padChar]
  | [a] =>
    let val := a.val * 65536
    [b64Char (val / 262144 % 64), b64Char (val / 4096 % 64), padChar, padChar]
  | [] => []

/-- Go `base64.StdEncoding.EncodedLen`. -/
def EncodedLen (n : Nat) : Nat := (n + 2) / 3 * 4

/-! ## unicode/utf8 and mime.BEncoding -/

/-- Table `first` of unicode/utf8 for a lead octet: `none` for ASCII and
invalid lead octets (size 1), else the sequence size and the accepted range of
the second octet. -/
def first (b : Byte) : Option (Nat × Nat × Nat) :=
  if b.val < 0xC2 then none
  else if b.val < 0xE0 then some (2, 0x80, 0xBF)
  else if b.val = 0xE0 then some (3, 0xA0, 0xBF)
  else if b.val < 0xED then some (3, 0x80, 0xBF)
  else if b.val = 0xED then some (3, 0x80, 0x9F)
  else if b.val < 0xF0 then some (3, 0x80, 0xBF)
  else if b.val = 0xF0 then some (4, 0x90, 0xBF)
  else if b.val < 0xF4 then some (4, 0x80, 0xBF)
  else if b.val = 0xF4 then some (4, 0x80, 0x8F)
  else none

/-- Size result of `utf8.DecodeRuneInString`. -/
def runeLen (s : Bytes) : Nat :=
  match s with
  | [] => 0
  | s0 :: t =>
    match first s0 with
    | none => 1
    | some (sz, lo, hi) =>
      if t.length + 1 < sz then 1
      else
        match t with
        | [] => 1
        | s1 :: t1 =>
          if s1.val < lo || hi < s1.val then 1
          else if sz ≤ 2 then 2
          else
            match t1 with
            | [] => 1
            | s2 :: t2 =>
              if s2.val < 0x80 || 0xBF < s2.val then 1
              else if sz ≤ 3 then 3
              else
                match t2 with
                | [] => 1
                | s3 :: _ => if s3.val < 0x80 || 0xBF < s3.val then 1 else 4

/-- Function `needsEncoding` of mime: some rune is neither printable ASCII nor tab.
Every octet from 0x80 up belongs to a rune above `~` (or decodes to U+FFFD),
so the test on runes is this test on octets. -/
def needsEncoding (s : Bytes) : Bool :=
  s.any (fun b => (b.val < 0x20 || b.val > 0x7E) && b.val != 0x09)

/-- Constant `maxContentLen` of mime: 75 less the header `=?UTF-8?q?` and the footer. -/
def maxContentLen : Nat := 75 - 10 - 2

/-- Variable `maxBase64Len` of mime: `base64.StdEncoding.DecodedLen(maxContentLen)`. -/
def maxBase64Len : Nat := maxContentLen / 4 * 3

/-- What `openWord` writes for charset `UTF-8` and the encoder `BEncoding`. -/
def openWord : Bytes := str "=?UTF-8?b?"

/-- What `closeWord` writes. -/
def closeWord : Bytes := str "?="

/-- What `splitWord` writes: close the word, a space, open the next one. -/
def splitWord : Bytes := closeWord ++ str " " ++ openWord

/-- Loop of `bEncode`: `pending` is `s[last:i]`, `rest` is `s[i:]`; the base64
writer is closed (flushed with padding) at each split and at the end. -/
def bEncodeLoop : Nat → Nat → Bytes → Bytes → Bytes
  | 0, _, pending, rest => base64Encode (pending ++ rest)
  | fuel + 1, currentLen, pending, rest =>
    if rest.isEmpty then base64Encode pending
    else
      let runeLen := runeLen rest
      if currentLen + runeLen ≤ maxBase64Len then
        bEncodeLoop fuel (currentLen + runeLen) (pending ++ rest.take runeLen) (rest.drop runeLen)
      else
        base64Encode pending ++ splitWord ++
          bEncodeLoop fuel runeLen (rest.take runeLen) (rest.drop runeLen)

/-- Method `bEncode` of mime for the charset UTF-8. -/
def bEncode (s : Bytes) : Bytes :=
  if EncodedLen s.length ≤ maxContentLen then base64Encode s
  else bEncodeLoop (s.length + 1) 0 [] s

/-- Call `mime.BEncoding.Encode("UTF-8", s)`. -/
def BEncodingEncode (s : Bytes) : Bytes :=
  if !needsEncoding s then s else openWord ++ bEncode s ++ closeWord

/-! ## encode -/

/-- First loop of `encode`: every space of `encoded` is replaced by the line
separator and a space. -/
def encodeWordsLoop (lineSeparator : Bytes) : Nat → Bytes → Bytes
  | 0, encoded => encoded
  | fuel + 1, encoded =>
    match indexByte encoded 0x20 with
    | some i =>
      encoded.take i ++ lineSeparator ++ str " " ++
        encodeWordsLoop lineSeparator fuel (encoded.drop (i + 1))
    | none => encoded

/-- Second loop of `encode`: split every 60 octets. -/
def encodeAsciiLoop (lineSeparator : Bytes) : Nat → Bytes → Bytes
  | 0, encoded => encoded
  | fuel + 1, encoded =>
    if encoded.length > 60 then
      encoded.take 60 ++ lineSeparator ++ str " " ++
        encodeAsciiLoop lineSeparator fuel (encoded.drop 60)
    else encoded

/-- Function `encode`: the octets it writes to `out`. -/
def encode (raw : Bytes) (lineSeparator : Bytes) : Bytes :=
  let encoded := BEncodingEncode raw
  if hasPrefix encoded (str "=?UTF-8?b?") then
    encodeWordsLoop lineSeparator (encoded.length + 1) encoded
  else
    encodeAsciiLoop lineSeparator (encoded.length + 1) encoded

/-! ## bytes -/

/-- The fixed boundary of `bytes`. -/
def boundary : Bytes := str "f46d043c813270fc6b04c2d223da"

/-- Base64 wrapping loop of `bytes`: while more than 60 octets remain, write
`encoded[:76]` and the line separator; then write the rest.  `encoded[:76]`
panics when fewer than 76 octets remain. -/
def wrapLoop (lineSeparator : Bytes) : Nat → Bytes → Option Bytes
  | 0, _ => none
  | fuel + 1, encoded =>
    if encoded.length > 60 then
      match slicePrefix encoded 76 with
      | none => none
      | some line =>
        (wrapLoop lineSeparator fuel (encoded.drop 76)).map
          (fun rest => line ++ lineSeparator ++ rest)
    else some encoded

/-- The wrapping loop of `bytes` run on the whole encoded payload. -/
def wrapBase64 (lineSeparator : Bytes) (encoded : Bytes) : Option Bytes :=
  wrapLoop lineSeparator (encoded.length + 1) encoded

/-- Headers written for an attachment after its opening delimiter. -/
def attachmentHeader (env : Env) (lineSeparator : Bytes) (attachment : Attachment) : Bytes :=
  if attachment.Inline then
    str "Content-Type: message/rfc822" ++ lineSeparator ++
    str "Content-Disposition: inline; filename=" ++ DQ ++
    encode attachment.Filename lineSeparator ++
    DQ ++ lineSeparator ++ lineSeparator
  else
    let contenttype := env.typeByExtension (Ext attachment.Filename)
    let contenttype := if contenttype = [] then str "application/octet-stream" else contenttype
    str "Content-Type: " ++ contenttype ++ lineSeparator ++
    str "Content-Transfer-Encoding: base64" ++ lineSeparator ++
    str "Content-Disposition: attachment;" ++ lineSeparator ++ str " filename=" ++ DQ ++
    encode attachment.Filename lineSeparator ++
    DQ ++ lineSeparator ++ lineSeparator

/-- Payload written for an attachment: the data itself when inline, else its
wrapped base64 encoding. -/
def attachmentPayload (lineSeparator : Bytes) (attachment : Attachment) : Option Bytes :=
  if attachment.Inline then some attachment.Data
  else wrapBase64 lineSeparator (base64Encode attachment.Data)

/-- One iteration of the attachment loop of `bytes`. -/
def writeAttachment (env : Env) (lineSeparator : Bytes) (attachment : Attachment) :
    Option Bytes :=
  (attachmentPayload lineSeparator attachment).map (fun payload =>
    lineSeparator ++ lineSeparator ++ str "--" ++ boundary ++ lineSeparator ++
    attachmentHeader env lineSeparator attachment ++
    payload ++
    (lineSeparator ++ str "--" ++ boundary))

/-- The attachment loop of `bytes`. -/
def writeAttachments (env : Env) (lineSeparator : Bytes) : List Attachment → Option Bytes
  | [] => some []
  | attachment :: rest =>
    match writeAttachment env lineSeparator attachment with
    | none => none
    | some part =>
      (writeAttachments env lineSeparator rest).map (fun parts => part ++ parts)

/-- Header block of `bytes`, up to and including `MIME-Version`. -/
def headers (env : Env) (lineSeparator : Bytes) (m : Message) : Bytes :=
  str "From: " ++ env.addressString m.From ++ lineSeparator ++
  str "Date: " ++ env.now ++ lineSeparator ++
  str "To: " ++ join m.To (str ",") ++ lineSeparator ++
  (if m.Cc.length > 0 then str "Cc: " ++ join m.Cc (str ",") ++ lineSeparator else []) ++
  str "Subject: " ++ encode m.Subject lineSeparator ++ lineSeparator ++
  (if m.ReplyTo.length > 0 then str "Reply-To: " ++ m.ReplyTo ++ lineSeparator else []) ++
  str "MIME-Version: 1.0" ++ lineSeparator

/-- Method `bytes`: the assembled mail, or `none` when a slice expression panics. -/
def Message.bytes (m : Message) (env : Env) (lineSeparator : Bytes) : Option Bytes :=
  let buf := headers env lineSeparator m
  let buf :=
    if m.Attachments.length > 0 then
      buf ++ (str "Content-Type: multipart/mixed; boundary=" ++ DQ ++ boundary ++ DQ ++
        lineSeparator) ++ (lineSeparator ++ str "--" ++ boundary ++ lineSeparator)
    else buf
  let buf := buf ++ (str "Content-Type: " ++ m.BodyContentType ++ str "; charset=utf-8" ++
    lineSeparator ++ lineSeparator)
  let buf := buf ++ m.Body
  let buf := buf ++ lineSeparator
  if m.Attachments.length > 0 then
    match writeAttachments env lineSeparator (m.Attachments.map Prod.snd) with
    | none => none
    | some parts => some (buf ++ parts ++ str "--")
  else some buf

/-- Method `BytesLF`. -/
def Message.BytesLF (m : Message) (env : Env) : Option Bytes := m.bytes env LF

/-- Method `BytesCRLF`. -/
def Message.BytesCRLF (m : Message) (env : Env) : Option Bytes := m.bytes env CRLF

/-! ## Message builder -/

/-- Go map assignment `m[k] = v`: the value of an existing key is replaced, a
new key gets a new entry. -/
def mapAssign : List (Bytes × Attachment) → Bytes → Attachment → List (Bytes × Attachment)
  | [], k, v => [(k, v)]
  | (k0, v0) :: rest, k, v =>
    if k0 = k then (k, v) :: rest else (k0, v0) :: mapAssign rest k v

/-- Method `AttachBuffer`: the message afterwards and the returned error
(`none` is `nil`). -/
def Message.AttachBuffer (m : Message) (filename : Bytes) (buf : Bytes) ( inline : Bool) :
    Message × Option Bytes :=
  ({ m with Attachments := mapAssign m.Attachments filename ⟨filename, buf, inline⟩ }, none)

/-- Function `newMessage`; the fields it leaves out have their zero values. -/
def newMessage (subject : Bytes) (body : Bytes) (bodyContentType : Bytes) : Message where
  From := ⟨[], []⟩
  To := []
  Cc := []
  Bcc := []
  ReplyTo := []
  Subject := subject
  Body := body
  BodyContentType := bodyContentType
  Attachments := []

/-- Function `NewMessage`. -/
def NewMessage (subject : Bytes) (body : Bytes) : Message :=
  newMessage subject body (str "text/plain")

/-- Function `NewHTMLMessage`. -/
def NewHTMLMessage (subject : Bytes) (body : Bytes) : Message :=
  newMessage subject body (str "text/html")

/-! ## File attachments -/

/-- File component of Go `filepath.Split` (separator `/`): the octets after the
last separator. -/
def splitFile (path : Bytes) : Bytes :=
  (path.reverse.takeWhile (fun c => c != 0x2F)).reverse

/-- Reading of files, Go `ioutil.ReadFile`: for a path, the contents of the
file or the error. -/
abbrev FileSystem := Bytes → Except Bytes Bytes

/-- Method `attach`: the message afterwards and the returned error
(`none` is `nil`). -/
def Message.attach (m : Message) (fs : FileSystem) (file : Bytes) ( inline : Bool) :
    Message × Option Bytes :=
  match fs file with
  | .error err => (m, some err)
  | .ok data =>
    let filename := splitFile file
    ({ m with Attachments := mapAssign m.Attachments filename ⟨filename, data, inline⟩ }, none)

/-- Method `Attach`. -/
def Message.Attach (m : Message) (fs : FileSystem) (file : Bytes) : Message × Option Bytes :=
  m.attach fs file false

/-- Method `Inline`. -/
def Message.Inline (m : Message) (fs : FileSystem) (file : Bytes) : Message × Option Bytes :=
  m.attach fs file true

/-- Method `attach` on a message whose attachment map may be `nil` (here
`none`), as it is in the zero value `Message{}` that no constructor built: the
map after the call and the returned error, or `none` when the assignment to an
entry of the nil map panics. -/
def attachOnMap (attachments : Option (List (Bytes × Attachment))) (fs : FileSystem)
    (file : Bytes) ( inline : Bool) :
    Option (Option (List (Bytes × Attachment)) × Option Bytes) :=
  match fs file with
  | .error err => some (attachments, some err)
  | .ok data =>
    let filename := splitFile file
    match attachments with
    | none => none
    | some entries => some (some (mapAssign entries filename ⟨filename, data, inline⟩), none)

/-- Go map index `m[k]`: `none` when the key is absent. -/
def mapLookup : List (Bytes × Attachment) → Bytes → Option Attachment
  | [], _ => none
  | (k0, v0) :: rest, k => if k0 = k then some v0 else mapLookup rest k

/-- A call of one of the three attaching methods. -/
inductive Call where
  | attachBuffer (filename : Bytes) (buf : Bytes) ( inline : Bool)
  | attachFile (file : Bytes)
  | inlineFile (file : Bytes)

/-- The message after a call. -/
def Call.run (fs : FileSystem) (m : Message) : Call → Message
  | .attachBuffer filename buf i => (m.AttachBuffer filename buf i).1
  | .attachFile file => (m.Attach fs file).1
  | .inlineFile file => (m.Inline fs file).1

/-- The message after a sequence of calls. -/
def runCalls (fs : FileSystem) (m : Message) (calls : List Call) : Message :=
  calls.foldl (Call.run fs) m

/-- The file name a call stores its attachment under. -/
def Call.filename : Call → Bytes
  | .attachBuffer filename _ _ => filename
  | .attachFile file => splitFile file
  | .inlineFile file => splitFile file

/-! ## Notions used to state the properties -/

/-- Number of positions of `s` at which `p` occurs. -/
def countOcc (p : Bytes) : Bytes → Nat
  | [] => if p = [] then 1 else 0
  | c :: s => (if hasPrefix (c :: s) p then 1 else 0) + countOcc p s

/-- Recursion behind `cut76`, bounded by the number of octets. -/
def cut76Fuel (sep : Bytes) : Nat → Bytes → Bytes
  | 0, e => e
  | fuel + 1, e =>
    if e.length < 76 then e else e.take 76 ++ sep ++ cut76Fuel sep fuel (e.drop 76)

/-- Base64 text cut into lines of 76 octets: every complete line of 76 octets
is followed by the separator, the remaining octets (fewer than 76, possibly
none) follow without one. -/
def cut76 (sep : Bytes) (e : Bytes) : Bytes := cut76Fuel sep e.length e

/-- Recursion behind `chunks60`, bounded by the number of octets. -/
def chunks60Fuel (sep : Bytes) : Nat → Bytes → Bytes
  | 0, s => s
  | fuel + 1, s =>
    if s.length ≤ 60 then s
    else s.take 60 ++ sep ++ [0x20] ++ chunks60Fuel sep fuel (s.drop 60)

/-- Consecutive chunks of 60 octets joined by the separator and one space. -/
def chunks60 (sep : Bytes) (s : Bytes) : Bytes := chunks60Fuel sep s.length s

/-- The layout of a message with empty Cc, empty ReplyTo and one attachment
that is not inline, with file name `f` and data `d`, serialized with LF. -/
def oneAttachmentLayout (env : Env) (m : Message) (f : Bytes) (d : Bytes) : Bytes :=
  str "From: " ++ env.addressString m.From ++ LF ++
  str "Date: " ++ env.now ++ LF ++
  str "To: " ++ join m.To (str ",") ++ LF ++
  str "Subject: " ++ encode m.Subject LF ++ LF ++
  str "MIME-Version: 1.0" ++ LF ++
  str "Content-Type: multipart/mixed; boundary=" ++ DQ ++ boundary ++ DQ ++ LF ++
  LF ++ str "--" ++ boundary ++ LF ++
  str "Content-Type: " ++ m.BodyContentType ++ str "; charset=utf-8" ++ LF ++ LF ++
  m.Body ++ LF ++
  LF ++ LF ++ str "--" ++ boundary ++ LF ++
  str "Content-Type: " ++
    (if env.typeByExtension (Ext f) = [] then str "application/octet-stream"
     else env.typeByExtension (Ext f)) ++ LF ++
  str "Content-Transfer-Encoding: base64" ++ LF ++
  str "Content-Disposition: attachment;" ++ LF ++ str " filename=" ++ DQ ++ encode f LF ++ DQ ++
    LF ++ LF ++
  cut76 LF (base64Encode d) ++
  LF ++ str "--" ++ boundary ++ str "--"

/-- Value of a character of the standard alphabet. -/
def b64Val (c : Byte) : Option Nat :=
  let i := encodeStd.indexOf c
  if i < 64 then some i else none

/-- Decoder of padded base64 over the standard alphabet (RFC 4648): groups of
four characters, padding only in the last group. -/
def base64Decode : Bytes → Option Bytes
  | [] => some []
  | c0 :: c1 :: c2 :: c3 :: rest =>
    if c3 = padChar then
      if rest ≠ [] then none
      else if c2 = padChar then
        match b64Val c0, b64Val c1 with
        | some v0, some v1 => some [Fin.ofNat ((v0 * 64 + v1) / 16)]
        | _, _ => none
      else
        match b64Val c0, b64Val c1, b64Val c2 with
        | some v0, some v1, some v2 =>
          let val := (v0 * 64 + v1) * 64 + v2
          some [Fin.ofNat (val / 1024), Fin.ofNat (val / 4 % 256)]
        | _, _, _ => none
    else
      match b64Val c0, b64Val c1, b64Val c2, b64Val c3, base64Decode rest with
      | some v0, some v1, some v2, some v3, some tail =>
        let val := ((v0 * 64 + v1) * 64 + v2) * 64 + v3
        some (Fin.ofNat (val / 65536) :: Fin.ofNat (val / 256 % 256) ::
          Fin.ofNat (val % 256) :: tail)
      | _, _, _, _, _ => none
  | _ => none

/-- Deleting every line separator from a text: every LF, or every CR LF pair. -/
def stripSep : LineSep → Bytes → Bytes
  | .lf, s => s.filter (fun b => b != 0x0A)
  | .crlf, [] => []
  | .crlf, [b] => [b]
  | .crlf, a :: b :: s =>
    if a = 0x0D ∧ b = 0x0A then stripSep .crlf s else a :: stripSep .crlf (b :: s)

/-- One step of the automaton that recognises an occurrence of `Bcc:`: the
states 0 to 3 count the octets of `Bcc:` matched at the end of the text read so
far, and state 4 records that an occurrence has been read. -/
def bccStep (q : Fin 5) (c : Byte) : Fin 5 :=
  if q = 4 then 4
  else if c = 0x42 then 1
  else if c = 0x63 then (if q = 1 then 2 else if q = 2 then 3 else 0)
  else if c = 0x3A then (if q = 3 then 4 else 0)
  else 0

/-- State of the automaton after reading `s` from state `q`. -/
def bccRun (q : Fin 5) (s : Bytes) : Fin 5 := s.foldl bccStep q

/-- What a state of the automaton says about the text `pre` read so far. -/
def bccInv (pre : Bytes) (q : Fin 5) : Prop :=
  if q = 4 then str "Bcc:" <:+: pre else (str "Bcc:").take q.val <:+ pre

/-- A text after which the automaton is in state 0, whatever was read before
without an occurrence. -/
def Resets (l : Bytes) : Prop := ∀ q : Fin 5, q ≠ 4 → bccRun q l = 0

instance (l : Bytes) : Decidable (Resets l) := by
  unfold Resets
  infer_instance

/-- Text with every LF replaced by CR LF. -/
def crlfOf (s : Bytes) : Bytes :=
  s.flatMap (fun b => if b = 0x0A then [0x0D, 0x0A] else [b])

/-- Text with every space replaced by the separator and a space. -/
def replaceSpaces (sep : Bytes) (s : Bytes) : Bytes :=
  s.flatMap (fun b => if b = 0x20 then sep ++ [0x20] else [b])

/-- One encoded-word: `=?UTF-8?b?`, the base64 text of a chunk, `?=`. -/
def encodedWord (chunk : Bytes) : Bytes := openWord ++ base64Encode chunk ++ closeWord

/-- Every LF of the text is directly followed by a space. -/
def lfThenSpace : Bytes → Bool
  | [] => true
  | [c] => c != 0x0A
  | c :: d :: s => (c != 0x0A || d == 0x20) && lfThenSpace (d :: s)

/-! ## Concrete inputs -/

/-- An environment in which an address with a plain display name is rendered
as the quoted name and the addr-spec in angle brackets, the time is the
reference time of the Go layout, and the only registered extension is `.txt`
(the values the reference test sees). -/
def testEnv : Env where
  addressString := fun a => DQ ++ a.Name ++ DQ ++ str " <" ++ a.Address ++ str ">"
  now := str "Mon, 02 Jan 2006 15:04:05 -0700"
  typeByExtension := fun e => if e = str ".txt" then str "text/plain; charset=utf-8" else []

/-- Scenario S1: plain text, one recipient, no attachments. -/
def s1Msg : Message :=
  { NewMessage (str "Subject") (str "Body") with
    From := ⟨str "From", str "from@example.com"⟩
    To := [str "to@example.com"] }

/-- Scenario S3: one recipient each in To, Cc and Bcc. -/
def s3Msg : Message :=
  { NewMessage (str "Subject") (str "Body") with
    From := ⟨str "From", str "from@example.com"⟩
    To := [str "a@x"]
    Cc := [str "b@x"]
    Bcc := [str "c@x"] }

/-- File name of the attachment of `TestEncoding`. -/
def testFilename : Bytes :=
  str "äöü1234567890123456789012345678901234567890123456789012345678901234567890.txt"

/-- Payload of the attachment of `TestEncoding`. -/
def testData : Bytes :=
  str "Lorem ipsum dolor sit amet, consetetur sadipscing elitr, sed diam nonumy eirmod tempor invidunt ut labore et dolore magna aliquyam"

/-- The message built by `TestEncoding`. -/
def testMsg : Message :=
  (Message.AttachBuffer s1Msg testFilename testData false).1

/-- The literal block `TestEncoding` expects, line by line. -/
def testExpected : Bytes :=
  str "From: " ++ DQ ++ str "From" ++ DQ ++ str " <from@example.com>" ++ LF ++
  str "Date: " ++ testEnv.now ++ LF ++
  str "To: to@example.com" ++ LF ++
  str "Subject: Subject" ++ LF ++
  str "MIME-Version: 1.0" ++ LF ++
  str "Content-Type: multipart/mixed; boundary=" ++ DQ ++ str "f46d043c813270fc6b04c2d223da" ++
    DQ ++ LF ++
  LF ++
  str "--f46d043c813270fc6b04c2d223da" ++ LF ++
  str "Content-Type: text/plain; charset=utf-8" ++ LF ++
  LF ++
  str "Body" ++ LF ++
  LF ++
  LF ++
  str "--f46d043c813270fc6b04c2d223da" ++ LF ++
  str "Content-Type: text/plain; charset=utf-8" ++ LF ++
  str "Content-Transfer-Encoding: base64" ++ LF ++
  str "Content-Disposition: attachment;" ++ LF ++
  str " filename=" ++ DQ ++
    str "=?UTF-8?b?w6TDtsO8MTIzNDU2Nzg5MDEyMzQ1Njc4OTAxMjM0NTY3ODkwMTIzNDU2Nzg5?=" ++ LF ++
  str " =?UTF-8?b?MDEyMzQ1Njc4OTAxMjM0NTY3ODkwMTIzNDU2Nzg5MC50eHQ=?=" ++ DQ ++ LF ++
  LF ++
  str "TG9yZW0gaXBzdW0gZG9sb3Igc2l0IGFtZXQsIGNvbnNldGV0dXIgc2FkaXBzY2luZyBlbGl0ciwg" ++ LF ++
  str "c2VkIGRpYW0gbm9udW15IGVpcm1vZCB0ZW1wb3IgaW52aWR1bnQgdXQgbGFib3JlIGV0IGRvbG9y" ++ LF ++
  str "ZSBtYWduYSBhbGlxdXlhbQ==" ++ LF ++
  str "--f46d043c813270fc6b04c2d223da--"

/-- A payload of 46 octets. -/
def panicData : Bytes := List.replicate 46 0x41

/-- A message with one ordinary attachment of 46 octets. -/
def panicMsg : Message :=
  (Message.AttachBuffer s1Msg (str "a.bin") panicData false).1

/-- The LF serialization expected in scenario S1. -/
def s1Expected : Bytes :=
  str "From: " ++ DQ ++ str "From" ++ DQ ++ str " <from@example.com>" ++ LF ++
  str "Date: " ++ testEnv.now ++ LF ++
  str "To: to@example.com" ++ LF ++
  str "Subject: Subject" ++ LF ++
  str "MIME-Version: 1.0" ++ LF ++
  str "Content-Type: text/plain; charset=utf-8" ++ LF ++
  LF ++
  str "Body" ++ LF

/-- A message with two ordinary attachments. -/
def twoMsg : Message :=
  (Message.AttachBuffer
    (Message.AttachBuffer s1Msg (str "a.txt") (str "first") false).1
    (str "b.txt") (str "second") false).1

/-- Scenario S3 with one ordinary attachment. -/
def s3AttMsg : Message :=
  (Message.AttachBuffer s3Msg (str "a.txt") (str "first") false).1

/-- The CR LF serialization of `s3AttMsg` in the test environment. -/
def s3AttOut : Bytes := (s3AttMsg.bytes testEnv CRLF).getD []

/-- A message whose subject is `Bcc: x`. -/
def bccSubjectMsg : Message :=
  { s1Msg with Subject := str "Bcc: x" }

/-- An ASCII text of 82 octets that has the shape of an encoded-word. -/
def longWordRaw : Bytes :=
  str "=?UTF-8?b?" ++ List.replicate 70 0x41 ++ str "?="

/-- An ASCII text of 70 octets that begins like an encoded-word. -/
def prefixedRaw : Bytes :=
  str "=?UTF-8?b?" ++ List.replicate 60 0x41

/-- Data of the inline attachment of `inlineMsg`: a small message. -/
def inlineData : Bytes :=
  str "Subject: nested" ++ CRLF ++ CRLF ++ str "text" ++ CRLF

/-- Scenario S4: a message with one inline attachment. -/
def inlineMsg : Message :=
  (Message.AttachBuffer s1Msg (str "note.eml") inlineData true).1

/-- The CR LF serialization of `inlineMsg` in the test environment. -/
def inlineOut : Bytes := (inlineMsg.bytes testEnv CRLF).getD []

/-- A file system with one readable file, `dir/b.txt`. -/
def demoFs : FileSystem := fun path =>
  if path = str "dir/b.txt" then .ok (str "second")
  else .error (str "open: no such file or directory")

/-- Three calls with non-empty file names; the last one fails to read its file. -/
def demoCalls : List Call :=
  [.attachBuffer (str "a.txt") (str "first") false, .attachFile (str "dir/b.txt"),
   .inlineFile (str "missing.eml")]

/-- One call of `AttachBuffer` with the empty file name. -/
def emptyNameCalls : List Call := [.attachBuffer [] (str "data") false]

/-! # Properties -/

/-! ## Recipient list -/

theorem ToList_eq (m : Message) :
    m.ToList =
      List.replicate (m.To.length + m.Cc.length + m.Bcc.length) [] ++ (m.To ++ m.Cc ++ m.Bcc) := by
  simp [Message.ToList]

theorem ToList_length (m : Message) :
    m.ToList.length = 2 * (m.To.length + m.Cc.length + m.Bcc.length) := by
  rw [ToList_eq]
  simp only [List.length_append, List.length_replicate]
  omega

/-- C1 (the code departs from it): in scenario S3 `ToList` returns six entries, three
empty strings followed by the three recipients, and not the concatenation of
To, Cc and Bcc. -/
theorem ToList_S3_padded :
    s3Msg.ToList = [[], [], [], str "a@x", str "b@x", str "c@x"] ∧
    s3Msg.ToList ≠ s3Msg.To ++ s3Msg.Cc ++ s3Msg.Bcc ∧
    s3Msg.ToList.length ≠ s3Msg.To.length + s3Msg.Cc.length + s3Msg.Bcc.length := by
  decide

/-- C8: every element of To, of Cc and of Bcc is an element of `ToList`, and
`ToList` ends with the elements of To, then those of Cc, then those of Bcc. -/
theorem ToList_recipients (m : Message) :
    m.To ⊆ m.ToList ∧ m.Cc ⊆ m.ToList ∧ m.Bcc ⊆ m.ToList ∧
    m.To ++ m.Cc ++ m.Bcc <:+ m.ToList := by
  rw [ToList_eq]
  refine ⟨?_, ?_, ?_, List.suffix_append _ _⟩ <;> intro r hr <;> simp [hr]

/-! ## Failure of the base64 wrapping loop -/

theorem writeAttachment_eq_none (env : Env) (sep : Bytes) (a : Attachment) :
    writeAttachment env sep a = none ↔ attachmentPayload sep a = none := by
  simp [writeAttachment]

theorem writeAttachments_eq_none (env : Env) (sep : Bytes) (atts : List Attachment) :
    writeAttachments env sep atts = none ↔ ∃ a ∈ atts, attachmentPayload sep a = none := by
  induction atts with
  | nil => simp [writeAttachments]
  | cons a rest ih =>
    cases hp : writeAttachment env sep a with
    | none =>
      have := (writeAttachment_eq_none env sep a).1 hp
      simp [writeAttachments, hp, this]
    | some part =>
      have hne : attachmentPayload sep a ≠ none := by
        intro h
        rw [(writeAttachment_eq_none env sep a).2 h] at hp
        cases hp
      simp [writeAttachments, hp, ih, hne]

theorem bytes_eq_none (m : Message) (env : Env) (sep : Bytes) :
    m.bytes env sep = none ↔
      ∃ a ∈ m.Attachments.map Prod.snd, attachmentPayload sep a = none := by
  unfold Message.bytes
  by_cases h : m.Attachments.length > 0
  · simp only [h, if_true]
    cases hw : writeAttachments env sep (m.Attachments.map Prod.snd) with
    | none =>
      have := (writeAttachments_eq_none env sep _).1 hw
      simp only [true_iff]
      exact this
    | some parts =>
      have hne : ¬ ∃ a ∈ m.Attachments.map Prod.snd, attachmentPayload sep a = none := by
        intro hex
        rw [(writeAttachments_eq_none env sep _).2 hex] at hw
        cases hw
      simp only [false_iff, reduceCtorEq]
      exact hne
  · have h0 : m.Attachments = [] := by
      cases hm : m.Attachments with
      | nil => rfl
      | cons a l => simp [hm] at h
    simp [h0]

/-- C2 (the code departs from it): for the message with one ordinary
attachment of 46 octets, whose base64 text has 64 octets, `bytes` panics in the
wrapping loop (`encoded[:76]` with 64 octets left), whatever the environment
and the line separator. -/
theorem bytes_panics_on_46_octets (env : Env) (sep : Bytes) :
    (base64Encode panicData).length = 64 ∧
    slicePrefix (base64Encode panicData) 76 = none ∧
    panicMsg.bytes env sep = none := by
  refine ⟨by decide, by decide, ?_⟩
  rw [bytes_eq_none]
  exact ⟨⟨str "a.bin", panicData, false⟩, by decide, rfl⟩

/-! ## Multipart framing -/

/-- C3 (the code departs from it): the message with two attachments (k = 2)
is serialized with five occurrences of the delimiter `--B`, not four; every
pass of the attachment loop writes a delimiter before its part and another one
after it. -/
theorem two_attachments_five_delimiters :
    twoMsg.Attachments.length = 2 ∧
    (twoMsg.bytes testEnv LF).map (countOcc (str "--" ++ boundary)) = some 5 ∧
    (twoMsg.bytes testEnv CRLF).map (countOcc (str "--" ++ boundary)) = some 5 := by
  decide!

/-! ## Layout without attachments -/

/-- C6: without attachments `bytes` returns exactly the headers From, Date, To,
Cc (when Cc is not empty), Subject, Reply-To (when ReplyTo is not empty),
MIME-Version and the Content-Type of the body, a blank line, the body and a
line separator. -/
theorem bytes_no_attachments (m : Message) (env : Env) (sep : Bytes)
    (h : m.Attachments = []) :
    m.bytes env sep = some (
      str "From: " ++ env.addressString m.From ++ sep ++
      str "Date: " ++ env.now ++ sep ++
      str "To: " ++ join m.To (str ",") ++ sep ++
      (if m.Cc ≠ [] then str "Cc: " ++ join m.Cc (str ",") ++ sep else []) ++
      str "Subject: " ++ encode m.Subject sep ++ sep ++
      (if m.ReplyTo ≠ [] then str "Reply-To: " ++ m.ReplyTo ++ sep else []) ++
      str "MIME-Version: 1.0" ++ sep ++
      str "Content-Type: " ++ m.BodyContentType ++ str "; charset=utf-8" ++ sep ++ sep ++
      m.Body ++ sep) := by
  have hc : (m.Cc.length > 0) = (m.Cc ≠ []) := by
    simp [List.length_pos]
  have hr : (m.ReplyTo.length > 0) = (m.ReplyTo ≠ []) := by
    simp [List.length_pos]
  simp only [Message.bytes, headers, h, List.length_nil, gt_iff_lt, lt_self_iff_false,
    if_false, List.append_assoc, hc, hr, ← gt_iff_lt]

/-- Scenario S1 as an instance of C6. -/
theorem bytes_no_attachments_witness :
    s1Msg.Attachments = [] ∧ s1Msg.bytes testEnv LF = some s1Expected :=
  ⟨rfl, (bytes_no_attachments s1Msg testEnv LF rfl).trans (by decide!)⟩

/-! ## encode on ASCII text that begins like an encoded-word -/

/-- C9 (the code departs from it): the 82-octet ASCII text `longWordRaw`,
which begins with `=?UTF-8?b?` and ends with `?=`, is written by `encode`
unchanged, as one piece of more than 75 octets. -/
theorem encode_long_word_unsplit :
    needsEncoding longWordRaw = false ∧
    encode longWordRaw LF = longWordRaw ∧
    encode longWordRaw CRLF = longWordRaw ∧
    hasPrefix longWordRaw (str "=?UTF-8?b?") = true ∧
    hasPrefix longWordRaw.reverse (str "?=").reverse = true ∧
    longWordRaw.length = 82 := by
  decide!

/-- C10 (the code departs from it): the 70-octet ASCII text `prefixedRaw`
needs no encoding, yet `encode` writes it in one piece instead of a chunk of
60 octets, the continuation and the remaining 10 octets. -/
theorem encode_prefixed_ascii_unwrapped :
    needsEncoding prefixedRaw = false ∧
    prefixedRaw.length = 70 ∧
    encode prefixedRaw LF = prefixedRaw ∧
    encode prefixedRaw CRLF = prefixedRaw ∧
    chunks60 LF prefixedRaw = prefixedRaw.take 60 ++ LF ++ [0x20] ++ prefixedRaw.drop 60 ∧
    encode prefixedRaw LF ≠ chunks60 LF prefixedRaw ∧
    encode prefixedRaw CRLF ≠ chunks60 CRLF prefixedRaw := by
  decide!

/-! ## The loops of `encode` and `bEncode` always run to their end -/

theorem runeLen_bounds (s0 : Byte) (t : Bytes) :
    1 ≤ runeLen (s0 :: t) ∧ runeLen (s0 :: t) ≤ 4 := by
  rw [runeLen]
  cases h : Email.first s0 with
  | none => simp
  | some x =>
    obtain ⟨sz, lo, hi⟩ := x
    simp only []
    constructor <;> repeat' split
    all_goals omega

theorem encodeWordsLoop_fuel (sep : Bytes) :
    ∀ (f1 f2 : Nat) (enc : Bytes), enc.length < f1 → enc.length < f2 →
      encodeWordsLoop sep f1 enc = encodeWordsLoop sep f2 enc := by
  intro f1
  induction f1 with
  | zero => intro f2 enc h; omega
  | succ n ih =>
    intro f2 enc h1 h2
    cases f2 with
    | zero => omega
    | succ k =>
      rw [encodeWordsLoop, encodeWordsLoop]
      cases hi : indexByte enc 0x20 with
      | none => rfl
      | some i =>
        have hlen : enc ≠ [] := by
          intro h0; subst h0; simp [indexByte] at hi
        have hpos : 0 < enc.length := List.length_pos.2 hlen
        simp only []
        rw [ih k (enc.drop (i + 1)) (by simp only [List.length_drop]; omega)
          (by simp only [List.length_drop]; omega)]

/-- Unfolding of the first loop of `encode`: the bound on the number of passes
is never reached. -/
theorem encodeWordsLoop_eq (sep enc : Bytes) :
    encodeWordsLoop sep (enc.length + 1) enc =
      match indexByte enc 0x20 with
      | some i =>
        enc.take i ++ sep ++ str " " ++
          encodeWordsLoop sep ((enc.drop (i + 1)).length + 1) (enc.drop (i + 1))
      | none => enc := by
  rw [encodeWordsLoop]
  cases hi : indexByte enc 0x20 with
  | none => rfl
  | some i =>
    have hlen : enc ≠ [] := by
      intro h0; subst h0; simp [indexByte] at hi
    have hpos : 0 < enc.length := List.length_pos.2 hlen
    simp only []
    rw [encodeWordsLoop_fuel sep enc.length ((enc.drop (i + 1)).length + 1) (enc.drop (i + 1))
      (by simp only [List.length_drop]; omega) (by omega)]

theorem encodeAsciiLoop_fuel (sep : Bytes) :
    ∀ (f1 f2 : Nat) (enc : Bytes), enc.length < f1 → enc.length < f2 →
      encodeAsciiLoop sep f1 enc = encodeAsciiLoop sep f2 enc := by
  intro f1
  induction f1 with
  | zero => intro f2 enc h; omega
  | succ n ih =>
    intro f2 enc h1 h2
    cases f2 with
    | zero => omega
    | succ k =>
      rw [encodeAsciiLoop, encodeAsciiLoop]
      split_ifs with hlen
      · rw [ih k (enc.drop 60) (by simp only [List.length_drop]; omega)
          (by simp only [List.length_drop]; omega)]
      · rfl

/-- Unfolding of the second loop of `encode`: the bound on the number of passes
is never reached. -/
theorem encodeAsciiLoop_eq (sep enc : Bytes) :
    encodeAsciiLoop sep (enc.length + 1) enc =
      if enc.length > 60 then
        enc.take 60 ++ sep ++ str " " ++
          encodeAsciiLoop sep ((enc.drop 60).length + 1) (enc.drop 60)
      else enc := by
  rw [encodeAsciiLoop]
  split_ifs with hlen
  · rw [encodeAsciiLoop_fuel sep enc.length ((enc.drop 60).length + 1) (enc.drop 60)
      (by simp only [List.length_drop]; omega) (by omega)]
  · rfl

theorem bEncodeLoop_fuel :
    ∀ (f1 f2 currentLen : Nat) (pending rest : Bytes), rest.length < f1 → rest.length < f2 →
      bEncodeLoop f1 currentLen pending rest = bEncodeLoop f2 currentLen pending rest := by
  intro f1
  induction f1 with
  | zero => intro f2 _ _ rest h; omega
  | succ n ih =>
    intro f2 currentLen pending rest h1 h2
    cases f2 with
    | zero => omega
    | succ k =>
      rw [bEncodeLoop, bEncodeLoop]
      cases rest with
      | nil => rfl
      | cons s0 t =>
        have hb := (runeLen_bounds s0 t).1
        have hd : ((s0 :: t).drop (runeLen (s0 :: t))).length < (s0 :: t).length := by
          simp only [List.length_drop, List.length_cons]; omega
        simp only [List.isEmpty_cons, Bool.false_eq_true, if_false]
        rw [ih k _ _ _ (by omega) (by omega), ih k _ _ _ (by omega) (by omega)]

/-- Unfolding of the loop of `bEncode`: the bound on the number of passes is
never reached. -/
theorem bEncodeLoop_eq (currentLen : Nat) (pending rest : Bytes) :
    bEncodeLoop (rest.length + 1) currentLen pending rest =
      if rest.isEmpty then base64Encode pending
      else if currentLen + runeLen rest ≤ maxBase64Len then
        bEncodeLoop ((rest.drop (runeLen rest)).length + 1) (currentLen + runeLen rest)
          (pending ++ rest.take (runeLen rest)) (rest.drop (runeLen rest))
      else
        base64Encode pending ++ splitWord ++
          bEncodeLoop ((rest.drop (runeLen rest)).length + 1) (runeLen rest)
            (rest.take (runeLen rest)) (rest.drop (runeLen rest)) := by
  rw [bEncodeLoop]
  cases rest with
  | nil => rfl
  | cons s0 t =>
    have hb := (runeLen_bounds s0 t).1
    have hd : ((s0 :: t).drop (runeLen (s0 :: t))).length < (s0 :: t).length := by
      simp only [List.length_drop, List.length_cons]; omega
    simp only [List.isEmpty_cons, Bool.false_eq_true, if_false]
    rw [bEncodeLoop_fuel (s0 :: t).length _ _ _ _ hd (Nat.lt_succ_self _),
      bEncodeLoop_fuel (s0 :: t).length _ _ _ _ hd (Nat.lt_succ_self _)]

theorem BEncodingEncode_ascii (raw : Bytes) (h : needsEncoding raw = false) :
    BEncodingEncode raw = raw := by
  simp [BEncodingEncode, h]

theorem encodeAsciiLoop_eq_chunks60 (sep : Bytes) :
    ∀ (n : Nat) (enc : Bytes), enc.length ≤ n →
      encodeAsciiLoop sep (n + 1) enc = chunks60Fuel sep n enc := by
  have hsp : str " " = [0x20] := by decide
  intro n
  induction n with
  | zero =>
    intro enc h
    have h60 : ¬ enc.length > 60 := by omega
    simp only [encodeAsciiLoop, chunks60Fuel, h60, if_false]
  | succ n ih =>
    intro enc h
    rw [encodeAsciiLoop, chunks60Fuel]
    by_cases h60 : enc.length > 60
    · have h60' : ¬ enc.length ≤ 60 := by omega
      simp only [h60, h60', if_true, if_false, hsp]
      rw [ih (enc.drop 60) (by simp only [List.length_drop]; omega)]
    · have h60' : enc.length ≤ 60 := by omega
      simp only [h60, h60', if_true, if_false]

/-- ASCII text that needs no encoding and does not begin with `=?UTF-8?b?` is
written as its chunks of 60 octets joined by the separator and a space. -/
theorem encode_ascii (raw sep : Bytes) (h : needsEncoding raw = false)
    (hp : hasPrefix raw (str "=?UTF-8?b?") = false) :
    encode raw sep = chunks60 sep raw := by
  unfold encode
  simp only [BEncodingEncode_ascii raw h, hp, Bool.false_eq_true, if_false]
  exact encodeAsciiLoop_eq_chunks60 sep raw.length raw le_rfl


/-! ## Base64 -/

theorem b64Val_b64Char : ∀ n, n < 64 → b64Val (b64Char n) = some n := by decide!
theorem b64Char_ne_pad : ∀ n, n < 64 → b64Char n ≠ padChar := by decide!
theorem b64Char_ne_sep : ∀ n, n < 64 → b64Char n ≠ 0x0A ∧ b64Char n ≠ 0x0D := by decide!

theorem base64Encode_mem (d : Bytes) :
    ∀ c ∈ base64Encode d, c = padChar ∨ ∃ n, n < 64 ∧ c = b64Char n := by
  have hch : ∀ n, ∃ k, k < 64 ∧ b64Char (n % 64) = b64Char k :=
    fun n => ⟨n % 64, Nat.mod_lt _ (by decide), rfl⟩
  induction d using base64Encode.induct with
  | case1 a b c rest ih =>
    intro x hx
    simp only [base64Encode, List.mem_cons] at hx
    rcases hx with h | h | h | h | h
    · rw [h]; exact Or.inr (hch _)
    · rw [h]; exact Or.inr (hch _)
    · rw [h]; exact Or.inr (hch _)
    · rw [h]; exact Or.inr (hch _)
    · exact ih x h
  | case2 a b =>
    intro x hx
    simp only [base64Encode, List.mem_cons, List.not_mem_nil, or_false] at hx
    rcases hx with h | h | h | h
    · rw [h]; exact Or.inr (hch _)
    · rw [h]; exact Or.inr (hch _)
    · rw [h]; exact Or.inr (hch _)
    · rw [h]; exact Or.inl rfl
  | case3 a =>
    intro x hx
    simp only [base64Encode, List.mem_cons, List.not_mem_nil, or_false] at hx
    rcases hx with h | h | h | h
    · rw [h]; exact Or.inr (hch _)
    · rw [h]; exact Or.inr (hch _)
    · rw [h]; exact Or.inl rfl
    · rw [h]; exact Or.inl rfl
  | case4 => intro x hx; simp [base64Encode] at hx

theorem b64Char_ne_colon : ∀ n, n < 64 → b64Char n ≠ 0x3A := by decide!

theorem base64Encode_no_colon (d : Bytes) : ∀ c ∈ base64Encode d, c ≠ 0x3A := by
  intro c hc
  rcases base64Encode_mem d c hc with h | ⟨n, hn, h⟩
  · rw [h]; decide
  · rw [h]; exact b64Char_ne_colon n hn

theorem base64Encode_no_sep (d : Bytes) :
    ∀ c ∈ base64Encode d, c ≠ 0x0A ∧ c ≠ 0x0D := by
  intro c hc
  rcases base64Encode_mem d c hc with h | ⟨n, hn, h⟩
  · rw [h]; decide
  · rw [h]; exact b64Char_ne_sep n hn

theorem fin_ofNat_eq (a : Byte) (n : Nat) (h : n = a.val) : (Fin.ofNat n : Fin 256) = a := by
  subst h
  apply Fin.ext
  simp [Fin.ofNat]

theorem base64Decode_encode (d : Bytes) : base64Decode (base64Encode d) = some d := by
  induction d using base64Encode.induct with
  | case1 a b c rest ih =>
    have ha := a.isLt
    have hb := b.isLt
    have hc := c.isLt
    simp only [base64Encode, base64Decode]
    rw [if_neg (b64Char_ne_pad _ (Nat.mod_lt _ (by decide)))]
    simp only [b64Val_b64Char _ (Nat.mod_lt _ (by decide)), ih]
    congr 2
    · apply fin_ofNat_eq; omega
    · congr 1
      · apply fin_ofNat_eq; omega
      · congr 1
        apply fin_ofNat_eq; omega
  | case2 a b =>
    have ha := a.isLt
    have hb := b.isLt
    simp only [base64Encode, base64Decode]
    simp only [if_true, ne_eq, not_true_eq_false, if_false]
    rw [if_neg (b64Char_ne_pad _ (Nat.mod_lt _ (by decide)))]
    simp only [b64Val_b64Char _ (Nat.mod_lt _ (by decide))]
    congr 2
    · apply fin_ofNat_eq; omega
    · congr 1
      apply fin_ofNat_eq; omega
  | case3 a =>
    have ha := a.isLt
    simp only [base64Encode, base64Decode]
    simp only [if_true, ne_eq, not_true_eq_false, if_false]
    simp only [b64Val_b64Char _ (Nat.mod_lt _ (by decide))]
    congr 2
    apply fin_ofNat_eq; omega
  | case4 => rfl

/-! ## The wrapping loop -/

theorem wrapLoop_fuel (sep : Bytes) :
    ∀ (f1 f2 : Nat) (e : Bytes), e.length < f1 → e.length < f2 →
      wrapLoop sep f1 e = wrapLoop sep f2 e := by
  intro f1
  induction f1 with
  | zero => intro f2 e h; omega
  | succ n ih =>
    intro f2 e h1 h2
    cases f2 with
    | zero => omega
    | succ k =>
      rw [wrapLoop, wrapLoop]
      by_cases hlen : e.length > 60
      · simp only [hlen, if_true]
        cases hs : slicePrefix e 76 with
        | none => rfl
        | some line =>
          have hd : (e.drop 76).length < e.length := by
            simp only [List.length_drop]; omega
          simp only []
          rw [ih k (e.drop 76) (by omega) (by omega)]
      · simp only [hlen, if_false]

/-- Unfolding of the wrapping loop: the bound on the number of passes is never reached. -/
theorem wrapBase64_eq (sep e : Bytes) :
    wrapBase64 sep e =
      if e.length > 60 then
        match slicePrefix e 76 with
        | none => none
        | some line => (wrapBase64 sep (e.drop 76)).map (fun rest => line ++ sep ++ rest)
      else some e := by
  have hd : (e.drop 76).length ≤ e.length := by simp only [List.length_drop]; omega
  show wrapLoop sep (e.length + 1) e = _
  rw [wrapLoop]
  by_cases hlen : e.length > 60
  · simp only [hlen, if_true]
    cases hs : slicePrefix e 76 with
    | none => rfl
    | some line =>
      simp only []
      rw [wrapLoop_fuel sep e.length ((e.drop 76).length + 1) (e.drop 76)
        (by simp only [List.length_drop]; omega) (by omega)]
      rfl
  · simp only [hlen, if_false]

theorem cut76Fuel_fuel (sep : Bytes) :
    ∀ (f1 f2 : Nat) (e : Bytes), e.length ≤ f1 → e.length ≤ f2 →
      cut76Fuel sep f1 e = cut76Fuel sep f2 e := by
  intro f1
  induction f1 with
  | zero =>
    intro f2 e h1 h2
    have he : e = [] := List.length_eq_zero.mp (by omega)
    subst he
    cases f2 <;> simp [cut76Fuel]
  | succ n ih =>
    intro f2 e h1 h2
    cases f2 with
    | zero =>
      have he : e = [] := List.length_eq_zero.mp (by omega)
      subst he
      simp [cut76Fuel]
    | succ k =>
      rw [cut76Fuel, cut76Fuel]
      by_cases hlen : e.length < 76
      · simp only [hlen, if_true]
      · simp only [hlen, if_false]
        rw [ih k (e.drop 76) (by simp only [List.length_drop]; omega)
          (by simp only [List.length_drop]; omega)]

/-- Unfolding of `cut76`: the bound on the recursion is never reached. -/
theorem cut76_eq (sep e : Bytes) :
    cut76 sep e = if e.length < 76 then e else e.take 76 ++ sep ++ cut76 sep (e.drop 76) := by
  show cut76Fuel sep e.length e = _
  by_cases hlen : e.length < 76
  · simp only [hlen, if_true]
    cases hn : e.length with
    | zero => rfl
    | succ n => rw [cut76Fuel]; simp only [hlen, if_true]
  · simp only [hlen, if_false]
    obtain ⟨n, hn⟩ : ∃ n, e.length = n + 1 := ⟨e.length - 1, by omega⟩
    rw [hn, cut76Fuel]
    simp only [hlen, if_false]
    rw [cut76Fuel_fuel sep n ((e.drop 76).length) (e.drop 76)
      (by simp only [List.length_drop]; omega) (by omega)]
    rfl

theorem wrapBase64_eq_some_cut76 (sep : Bytes) :
    ∀ (n : Nat) (e p : Bytes), e.length ≤ n → wrapBase64 sep e = some p → p = cut76 sep e := by
  intro n
  induction n with
  | zero =>
    intro e p hn h
    rw [wrapBase64_eq] at h
    rw [cut76_eq]
    have h60 : ¬ e.length > 60 := by omega
    have h76 : e.length < 76 := by omega
    simp only [h60, if_false, Option.some.injEq] at h
    subst h
    simp only [h76, if_true]
  | succ n ih =>
    intro e p hn h
    rw [wrapBase64_eq] at h
    rw [cut76_eq]
    by_cases hlen : e.length > 60
    · simp only [hlen, if_true, slicePrefix] at h
      by_cases h76 : 76 ≤ e.length
      · simp only [h76, if_true, Option.map_eq_some'] at h
        obtain ⟨rest, hrest, hp⟩ := h
        have := ih (e.drop 76) rest (by simp only [List.length_drop]; omega) hrest
        have hn76 : ¬ e.length < 76 := by omega
        simp only [hn76, if_false, ← this, hp]
      · simp only [h76, if_false] at h
        cases h
    · have h76 : e.length < 76 := by omega
      simp only [hlen, if_false, Option.some.injEq] at h
      subst h
      simp only [h76, if_true]

/-! ## Layout with one attachment -/

theorem writeAttachments_single (env : Env) (sep : Bytes) (a : Attachment) :
    writeAttachments env sep [a] = writeAttachment env sep a := by
  simp only [writeAttachments]
  cases writeAttachment env sep a <;> simp

/-- C4 as amended (the payload of the test has 130 octets, not 131): with empty
Cc, empty ReplyTo and exactly one attachment, not inline, with file name `f` and
data `d`, a successful `BytesLF` is `oneAttachmentLayout`: the headers From,
Date, To, Subject and MIME-Version, the multipart header, the body part, the
attachment part with its three headers, the base64 text of `d` cut into lines
of 76 octets, and the closing delimiter with nothing after it. -/
theorem bytes_one_attachment (m : Message) (env : Env) (key f d out : Bytes)
    (hcc : m.Cc = []) (hr : m.ReplyTo = [])
    (ha : m.Attachments = [(key, ⟨f, d, false⟩)])
    (hout : m.BytesLF env = some out) :
    out = oneAttachmentLayout env m f d := by
  unfold Message.BytesLF Message.bytes at hout
  simp only [ha, List.length_singleton, gt_iff_lt, Nat.lt_one_iff, Nat.pos_of_ne_zero,
    zero_lt_one, if_true, List.map_cons, List.map_nil, writeAttachments_single] at hout
  unfold writeAttachment attachmentPayload at hout
  simp only [Bool.false_eq_true, if_false] at hout
  cases hw : wrapBase64 LF (base64Encode d) with
  | none => simp [hw] at hout
  | some p =>
    have hp := wrapBase64_eq_some_cut76 LF _ _ p le_rfl hw
    simp only [hw, Option.map_some', Option.some.injEq] at hout
    subst hout
    simp only [oneAttachmentLayout, headers, attachmentHeader, hcc, hr, hp, List.length_nil,
      gt_iff_lt, lt_self_iff_false, if_false, Bool.false_eq_true, List.append_assoc,
      List.nil_append]

set_option maxRecDepth 100000 in
/-- The input of `TestEncoding` as an instance of C4: the output is the literal
block of the test; the file name is written as two encoded-words, the second
on a continuation line, and the payload as lines of 76, 76 and 24 octets. -/
theorem bytes_one_attachment_witness :
    testMsg.BytesLF testEnv = some testExpected ∧
    testExpected = oneAttachmentLayout testEnv testMsg testFilename testData ∧
    encode testFilename LF =
      str "=?UTF-8?b?w6TDtsO8MTIzNDU2Nzg5MDEyMzQ1Njc4OTAxMjM0NTY3ODkwMTIzNDU2Nzg5?=" ++ LF ++
      str " =?UTF-8?b?MDEyMzQ1Njc4OTAxMjM0NTY3ODkwMTIzNDU2Nzg5MC50eHQ=?=" ∧
    testData.length = 130 ∧
    cut76 LF (base64Encode testData) =
      str "TG9yZW0gaXBzdW0gZG9sb3Igc2l0IGFtZXQsIGNvbnNldGV0dXIgc2FkaXBzY2luZyBlbGl0ciwg" ++ LF ++
      str "c2VkIGRpYW0gbm9udW15IGVpcm1vZCB0ZW1wb3IgaW52aWR1bnQgdXQgbGFib3JlIGV0IGRvbG9y" ++ LF ++
      str "ZSBtYWduYSBhbGlxdXlhbQ==" ∧
    (str "TG9yZW0gaXBzdW0gZG9sb3Igc2l0IGFtZXQsIGNvbnNldGV0dXIgc2FkaXBzY2luZyBlbGl0ciwg").length = 76 ∧
    (str "c2VkIGRpYW0gbm9udW15IGVpcm1vZCB0ZW1wb3IgaW52aWR1bnQgdXQgbGFib3JlIGV0IGRvbG9y").length = 76 ∧
    (str "ZSBtYWduYSBhbGlxdXlhbQ==").length = 24 :=
  ⟨by decide!,
   bytes_one_attachment testMsg testEnv testFilename testFilename testData testExpected
     (by decide!) (by decide!) (by decide!) (by decide!),
   by decide!, by decide!, by decide!, by decide!, by decide!, by decide!⟩

/-- C4, as stated, fails at its witness: the payload of `TestEncoding` has 130
octets, not 131; accordingly its base64 text ends with two padding characters. -/
theorem test_payload_length :
    testData.length = 130 ∧ testData.length ≠ 131 ∧
    (base64Encode testData).reverse.take 2 = [padChar, padChar] := by
  decide!

/-! ## Round trip of attachment data -/

theorem stripSep_crlf_cons (a : Byte) (s : Bytes) (ha : a ≠ 0x0D) :
    stripSep .crlf (a :: s) = a :: stripSep .crlf s := by
  cases s with
  | nil => simp [stripSep]
  | cons b s => simp [stripSep, ha]

theorem stripSep_append (ls : LineSep) (x y : Bytes)
    (hx : ∀ c ∈ x, c ≠ 0x0A ∧ c ≠ 0x0D) :
    stripSep ls (x ++ y) = x ++ stripSep ls y := by
  cases ls with
  | lf =>
    simp only [stripSep, List.filter_append]
    congr 1
    rw [List.filter_eq_self]
    intro c hc
    simpa using (hx c hc).1
  | crlf =>
    induction x with
    | nil => rfl
    | cons a x ih =>
      rw [List.cons_append, stripSep_crlf_cons _ _ (hx a (List.mem_cons_self _ _)).2,
        ih (fun c hc => hx c (List.mem_cons_of_mem _ hc))]
      rfl

theorem stripSep_sep (ls : LineSep) (y : Bytes) :
    stripSep ls (ls.toBytes ++ y) = stripSep ls y := by
  cases ls with
  | lf => simp [stripSep, LineSep.toBytes, LF]
  | crlf => simp [stripSep, LineSep.toBytes, CRLF]

theorem stripSep_self (ls : LineSep) (x : Bytes) (hx : ∀ c ∈ x, c ≠ 0x0A ∧ c ≠ 0x0D) :
    stripSep ls x = x := by
  have h := stripSep_append ls x [] hx
  rw [List.append_nil] at h
  rw [h]
  cases ls <;> simp [stripSep]

theorem stripSep_cut76 (ls : LineSep) :
    ∀ (n : Nat) (e : Bytes), e.length ≤ n → (∀ c ∈ e, c ≠ 0x0A ∧ c ≠ 0x0D) →
      stripSep ls (cut76 ls.toBytes e) = e := by
  intro n
  induction n with
  | zero =>
    intro e hn he
    have h0 : e = [] := List.length_eq_zero.mp (by omega)
    subst h0
    rw [cut76_eq]
    simp only [List.length_nil, Nat.zero_lt_succ, if_true]
    exact stripSep_self ls [] he
  | succ n ih =>
    intro e hn he
    rw [cut76_eq]
    by_cases h76 : e.length < 76
    · simp only [h76, if_true]
      exact stripSep_self ls e he
    · simp only [h76, if_false]
      have htake : ∀ c ∈ e.take 76, c ≠ 0x0A ∧ c ≠ 0x0D :=
        fun c hc => he c (List.mem_of_mem_take hc)
      have hdrop : ∀ c ∈ e.drop 76, c ≠ 0x0A ∧ c ≠ 0x0D :=
        fun c hc => he c (List.mem_of_mem_drop hc)
      rw [List.append_assoc, stripSep_append ls _ _ htake, stripSep_sep,
        ih (e.drop 76) (by simp only [List.length_drop]; omega) hdrop, List.take_append_drop]

/-- Every attachment written by `bytes` appears in the output as its headers,
its payload and the delimiter that follows. -/
theorem writeAttachments_part (env : Env) (sep : Bytes) :
    ∀ (atts : List Attachment) (parts : Bytes), writeAttachments env sep atts = some parts →
      ∀ a ∈ atts, ∃ pre payload post,
        attachmentPayload sep a = some payload ∧
        parts = pre ++ (sep ++ sep ++ str "--" ++ boundary ++ sep) ++
          attachmentHeader env sep a ++ payload ++ (sep ++ str "--" ++ boundary) ++ post := by
  intro atts
  induction atts with
  | nil => intro parts _ a ha; cases ha
  | cons b rest ih =>
    intro parts h a ha
    simp only [writeAttachments] at h
    cases hb : writeAttachment env sep b with
    | none => simp [hb] at h
    | some part =>
      simp only [hb, Option.map_eq_some'] at h
      obtain ⟨tail, htail, hparts⟩ := h
      rcases List.mem_cons.1 ha with hab | hmem
      · subst hab
        simp only [writeAttachment, Option.map_eq_some'] at hb
        obtain ⟨payload, hpay, hpart⟩ := hb
        refine ⟨[], payload, tail, hpay, ?_⟩
        rw [← hparts, ← hpart]
        simp only [List.nil_append, List.append_assoc]
      · obtain ⟨pre, payload, post, hpay, hp⟩ := ih tail htail a hmem
        refine ⟨part ++ pre, payload, post, hpay, ?_⟩
        rw [← hparts, hp]
        simp only [List.append_assoc]

theorem bytes_part (m : Message) (env : Env) (sep out : Bytes)
    (hout : m.bytes env sep = some out) :
    ∀ a ∈ m.Attachments.map Prod.snd, ∃ pre payload post,
      attachmentPayload sep a = some payload ∧
      out = pre ++ (sep ++ sep ++ str "--" ++ boundary ++ sep) ++
        attachmentHeader env sep a ++ payload ++ (sep ++ str "--" ++ boundary) ++ post := by
  intro a ha
  unfold Message.bytes at hout
  by_cases hlen : m.Attachments.length > 0
  · simp only [hlen, if_true] at hout
    cases hw : writeAttachments env sep (m.Attachments.map Prod.snd) with
    | none => simp [hw] at hout
    | some parts =>
      simp only [hw, Option.some.injEq] at hout
      obtain ⟨pre, payload, post, hpay, hp⟩ := writeAttachments_part env sep _ parts hw a ha
      obtain ⟨buf, hbuf⟩ : ∃ buf, out = buf ++ parts ++ str "--" := ⟨_, hout.symm⟩
      refine ⟨buf ++ pre, payload, post ++ str "--", hpay, ?_⟩
      rw [hbuf, hp]
      simp only [List.append_assoc]
  · have h0 : m.Attachments = [] := by
      cases hm : m.Attachments with
      | nil => rfl
      | cons a l => simp [hm] at hlen
    simp [h0] at ha

/-- C5: in a successful serialization, every attachment that is not inline is
written as its headers (ending with the blank line after Content-Disposition),
a payload, and the separator and delimiter `--B`; deleting every line separator
from that payload and decoding it as padded standard base64 gives the data of
the attachment. -/
theorem attachment_round_trip (m : Message) (env : Env) (ls : LineSep) (out : Bytes)
    (a : Attachment) (hout : m.bytes env ls.toBytes = some out)
    (ha : a ∈ m.Attachments.map Prod.snd) (hinline : a.Inline = false) :
    ∃ pre payload post,
      out = pre ++ attachmentHeader env ls.toBytes a ++ payload ++
        (ls.toBytes ++ str "--" ++ boundary) ++ post ∧
      base64Decode (stripSep ls payload) = some a.Data := by
  obtain ⟨pre, payload, post, hpay, hp⟩ := bytes_part m env ls.toBytes out hout a ha
  refine ⟨pre ++ (ls.toBytes ++ ls.toBytes ++ str "--" ++ boundary ++ ls.toBytes), payload, post,
    ?_, ?_⟩
  · rw [hp]
  · simp only [attachmentPayload, hinline, Bool.false_eq_true, if_false] at hpay
    rw [wrapBase64_eq_some_cut76 ls.toBytes _ _ payload le_rfl hpay,
      stripSep_cut76 ls _ _ le_rfl (base64Encode_no_sep a.Data), base64Decode_encode]

set_option maxRecDepth 100000 in
/-- The message of `TestEncoding`, serialized with CR LF, as an instance of C5. -/
theorem attachment_round_trip_witness :
    (∃ out, testMsg.bytes testEnv CRLF = some out) ∧
    ∃ pre payload post,
      testMsg.bytes testEnv CRLF = some (pre ++
        attachmentHeader testEnv CRLF ⟨testFilename, testData, false⟩ ++ payload ++
        (CRLF ++ str "--" ++ boundary) ++ post) ∧
      base64Decode (stripSep .crlf payload) = some testData := by
  have hsome : (testMsg.bytes testEnv CRLF).isSome = true := by decide!
  obtain ⟨out, hout⟩ := Option.isSome_iff_exists.1 hsome
  obtain ⟨pre, payload, post, h1, h2⟩ :=
    attachment_round_trip testMsg testEnv .crlf out ⟨testFilename, testData, false⟩ hout
      (by decide!) rfl
  exact ⟨⟨out, hout⟩, pre, payload, post, hout.trans (congrArg some h1), h2⟩

/-! ## The automaton for `Bcc:` -/

theorem bccRun_append (q : Fin 5) (x y : Bytes) :
    bccRun q (x ++ y) = bccRun (bccRun q x) y := by
  simp [bccRun, List.foldl_append]

theorem bccRun_cons (q : Fin 5) (c : Byte) (s : Bytes) :
    bccRun q (c :: s) = bccRun (bccStep q c) s := rfl

theorem bccRun_dead (s : Bytes) : bccRun 4 s = 4 := by
  induction s with
  | nil => rfl
  | cons c s ih => rw [bccRun_cons]; exact ih

theorem bccRun_pattern : ∀ q : Fin 5, bccRun q (str "Bcc:") = 4 := by decide

theorem bccRun_of_occurs {s : Bytes} (h : str "Bcc:" <:+: s) : bccRun 0 s = 4 := by
  obtain ⟨a, b, rfl⟩ := h
  rw [bccRun_append, bccRun_append, bccRun_pattern, bccRun_dead]

theorem str_bcc : str "Bcc:" = [0x42, 0x63, 0x63, 0x3A] := by decide

theorem bccInv_step (pre : Bytes) (q : Fin 5) (c : Byte) (h : bccInv pre q) :
    bccInv (pre ++ [c]) (bccStep q c) := by
  have hsuf : ∀ (l : Bytes), l <:+ pre → l ++ [c] <:+ pre ++ [c] := by
    rintro l ⟨t, rfl⟩
    exact ⟨t, by simp⟩
  have hkeep : str "Bcc:" <:+: pre → str "Bcc:" <:+: pre ++ [c] :=
    fun hp => hp.trans (List.prefix_append _ _).isInfix
  unfold bccInv at h ⊢
  rw [str_bcc] at h hkeep ⊢
  by_cases hcB : c = 0x42
  · subst hcB
    fin_cases q <;> simp [bccStep] at h ⊢
    exact hkeep h
  · by_cases hcc : c = 0x63
    · subst hcc
      fin_cases q <;> simp [bccStep] at h ⊢
      · exact hsuf _ h
      · exact hsuf _ h
      · exact hkeep h
    · by_cases hcol : c = 0x3A
      · subst hcol
        fin_cases q <;> simp [bccStep] at h ⊢
        · exact (hsuf _ h).isInfix
        · exact hkeep h
      · fin_cases q <;> simp [bccStep, hcB, hcc, hcol] at h ⊢
        exact hkeep h

theorem bccInv_run (s : Bytes) : ∀ (pre : Bytes) (q : Fin 5), bccInv pre q →
    bccInv (pre ++ s) (bccRun q s) := by
  induction s with
  | nil => intro pre q h; simpa [bccRun] using h
  | cons c s ih =>
    intro pre q h
    have := ih (pre ++ [c]) (bccStep q c) (bccInv_step pre q c h)
    simpa [bccRun_cons] using this

theorem infix_of_bccRun {s : Bytes} (h : bccRun 0 s = 4) : str "Bcc:" <:+: s := by
  have h0 : bccInv [] 0 := by
    unfold bccInv
    simp
  have := bccInv_run s [] 0 h0
  rw [h] at this
  simpa [bccInv] using this

/-- The automaton accepts exactly the texts in which `Bcc:` occurs. -/
theorem bccRun_eq_four_iff (s : Bytes) : bccRun 0 s = 4 ↔ str "Bcc:" <:+: s :=
  ⟨infix_of_bccRun, bccRun_of_occurs⟩

theorem bccRun_ne_of_absent {s : Bytes} (h : ¬ str "Bcc:" <:+: s) : bccRun 0 s ≠ 4 :=
  fun h4 => h (infix_of_bccRun h4)

/-! ## Occurrences of `Bcc:` in the output -/

theorem bccStep_ne_of_no_colon (q : Fin 5) (c : Byte) (hq : q ≠ 4) (hc : c ≠ 0x3A) :
    bccStep q c ≠ 4 := by
  fin_cases q <;> simp [bccStep, hc] at hq ⊢ <;> split_ifs <;> decide

theorem bccRun_ne_of_no_colon (s : Bytes) :
    ∀ q : Fin 5, q ≠ 4 → (∀ c ∈ s, c ≠ 0x3A) → bccRun q s ≠ 4 := by
  induction s with
  | nil => intro q hq _; exact hq
  | cons c s ih =>
    intro q hq hs
    rw [bccRun_cons]
    exact ih _ (bccStep_ne_of_no_colon q c hq (hs c (List.mem_cons_self _ _)))
      (fun x hx => hs x (List.mem_cons_of_mem _ hx))

theorem not_infix_of_no_colon {s : Bytes} (hs : ∀ c ∈ s, c ≠ 0x3A) : ¬ str "Bcc:" <:+: s :=
  fun h => bccRun_ne_of_no_colon s 0 (by decide) hs (bccRun_of_occurs h)

theorem resets_sep (ls : LineSep) : Resets ls.toBytes := by
  cases ls <;> decide

theorem resets_append_zero {l k : Bytes} (hl : Resets l) (hk : bccRun 0 k = 0) :
    Resets (l ++ k) := by
  intro q hq
  rw [bccRun_append, hl q hq, hk]

theorem zero_of_resets {l : Bytes} (hl : Resets l) : bccRun 0 l = 0 := hl 0 (by decide)

theorem bccRun_field {f l : Bytes} (hf : bccRun 0 f ≠ 4) (hl : Resets l) :
    bccRun 0 (f ++ l) = 0 := by
  rw [bccRun_append, hl _ hf]

theorem bccRun_zero_append {x y : Bytes} (hx : bccRun 0 x = 0) (hy : bccRun 0 y = 0) :
    bccRun 0 (x ++ y) = 0 := by
  rw [bccRun_append, hx, hy]

theorem bccRun_join (l : List Bytes) (h : ∀ r ∈ l, ¬ str "Bcc:" <:+: r) :
    bccRun 0 (join l (str ",")) ≠ 4 := by
  induction l with
  | nil => simp [join, List.intercalate, bccRun]
  | cons a l ih =>
    cases l with
    | nil =>
      simpa [join, List.intercalate] using bccRun_ne_of_absent (h a (List.mem_cons_self _ _))
    | cons b l =>
      have hrest := ih (fun r hr => h r (List.mem_cons_of_mem _ hr))
      have ha := bccRun_ne_of_absent (h a (List.mem_cons_self _ _))
      have hcomma : Resets (str ",") := by decide
      have heq : join (a :: b :: l) (str ",") = a ++ str "," ++ join (b :: l) (str ",") := by
        simp [join, List.intercalate]
      rw [heq, bccRun_append, bccRun_field ha hcomma]
      exact hrest

theorem bEncodeLoop_no_colon :
    ∀ (fuel currentLen : Nat) (pending rest : Bytes),
      ∀ c ∈ bEncodeLoop fuel currentLen pending rest, c ≠ 0x3A := by
  have hsplit : ∀ c ∈ splitWord, c ≠ 0x3A := by decide!
  intro fuel
  induction fuel with
  | zero =>
    intro currentLen pending rest c hc
    exact base64Encode_no_colon _ c hc
  | succ n ih =>
    intro currentLen pending rest c hc
    rw [bEncodeLoop] at hc
    dsimp only at hc
    split_ifs at hc
    · exact base64Encode_no_colon _ c hc
    · exact ih _ _ _ c hc
    · simp only [List.mem_append] at hc
      rcases hc with (h | h) | h
      · exact base64Encode_no_colon _ c h
      · exact hsplit c h
      · exact ih _ _ _ c h

theorem BEncodingEncode_absent (raw : Bytes) (h : ¬ str "Bcc:" <:+: raw) :
    ¬ str "Bcc:" <:+: BEncodingEncode raw := by
  unfold BEncodingEncode
  split_ifs
  · exact h
  · apply not_infix_of_no_colon
    have hopen : ∀ c ∈ openWord, c ≠ 0x3A := by decide!
    have hclose : ∀ c ∈ closeWord, c ≠ 0x3A := by decide!
    intro c hc
    simp only [List.mem_append] at hc
    rcases hc with (hc | hc) | hc
    · exact hopen c hc
    · unfold bEncode at hc
      split_ifs at hc
      · exact base64Encode_no_colon _ c hc
      · exact bEncodeLoop_no_colon _ _ _ _ c hc
    · exact hclose c hc

theorem encodeWordsLoop_clean (ls : LineSep) :
    ∀ (fuel : Nat) (enc : Bytes), ¬ str "Bcc:" <:+: enc →
      bccRun 0 (encodeWordsLoop ls.toBytes fuel enc) ≠ 4 := by
  have hsp : bccRun 0 (str " ") = 0 := by decide
  intro fuel
  induction fuel with
  | zero => intro enc h; exact bccRun_ne_of_absent h
  | succ n ih =>
    intro enc h
    rw [encodeWordsLoop]
    cases hi : indexByte enc 0x20 with
    | none => exact bccRun_ne_of_absent h
    | some i =>
      have htake : bccRun 0 (enc.take i) ≠ 4 :=
        bccRun_ne_of_absent (fun hp => h (hp.trans (List.take_prefix _ _).isInfix))
      have hdrop : ¬ str "Bcc:" <:+: enc.drop (i + 1) :=
        fun hp => h (hp.trans (List.drop_suffix _ _).isInfix)
      simp only [bccRun_append, resets_sep ls _ htake, hsp]
      exact ih _ hdrop

theorem encodeAsciiLoop_clean (ls : LineSep) :
    ∀ (fuel : Nat) (enc : Bytes), ¬ str "Bcc:" <:+: enc →
      bccRun 0 (encodeAsciiLoop ls.toBytes fuel enc) ≠ 4 := by
  have hsp : bccRun 0 (str " ") = 0 := by decide
  intro fuel
  induction fuel with
  | zero => intro enc h; exact bccRun_ne_of_absent h
  | succ n ih =>
    intro enc h
    rw [encodeAsciiLoop]
    split_ifs
    · have htake : bccRun 0 (enc.take 60) ≠ 4 :=
        bccRun_ne_of_absent (fun hp => h (hp.trans (List.take_prefix _ _).isInfix))
      have hdrop : ¬ str "Bcc:" <:+: enc.drop 60 :=
        fun hp => h (hp.trans (List.drop_suffix _ _).isInfix)
      simp only [bccRun_append, resets_sep ls _ htake, hsp]
      exact ih _ hdrop
    · exact bccRun_ne_of_absent h

theorem encode_clean (ls : LineSep) (raw : Bytes) (h : ¬ str "Bcc:" <:+: raw) :
    bccRun 0 (encode raw ls.toBytes) ≠ 4 := by
  unfold encode
  simp only []
  split_ifs
  · exact encodeWordsLoop_clean ls _ _ (BEncodingEncode_absent raw h)
  · exact encodeAsciiLoop_clean ls _ _ (BEncodingEncode_absent raw h)

theorem bccRun_nil (q : Fin 5) : bccRun q [] = q := rfl

theorem cut76_mem (sep : Bytes) :
    ∀ (n : Nat) (e : Bytes), e.length ≤ n → ∀ c ∈ cut76 sep e, c ∈ e ∨ c ∈ sep := by
  intro n
  induction n with
  | zero =>
    intro e hn c hc
    rw [cut76_eq] at hc
    have h76 : e.length < 76 := by omega
    simp only [h76, if_true] at hc
    exact Or.inl hc
  | succ n ih =>
    intro e hn c hc
    rw [cut76_eq] at hc
    by_cases h76 : e.length < 76
    · simp only [h76, if_true] at hc
      exact Or.inl hc
    · simp only [h76, if_false, List.mem_append] at hc
      rcases hc with (h | h) | h
      · exact Or.inl (List.mem_of_mem_take h)
      · exact Or.inr h
      · rcases ih (e.drop 76) (by simp only [List.length_drop]; omega) c h with h2 | h2
        · exact Or.inl (List.mem_of_mem_drop h2)
        · exact Or.inr h2

theorem attachmentPayload_clean (ls : LineSep) (a : Attachment) (payload : Bytes)
    (hdata : a.Inline = true → ¬ str "Bcc:" <:+: a.Data)
    (hp : attachmentPayload ls.toBytes a = some payload) :
    bccRun 0 payload ≠ 4 := by
  unfold attachmentPayload at hp
  by_cases hin : a.Inline = true
  · simp only [hin, if_true, Option.some.injEq] at hp
    subst hp
    exact bccRun_ne_of_absent (hdata hin)
  · simp only [hin, if_false] at hp
    rw [wrapBase64_eq_some_cut76 _ _ _ payload le_rfl hp]
    apply bccRun_ne_of_no_colon _ 0 (by decide)
    intro c hc
    rcases cut76_mem _ _ _ le_rfl c hc with h | h
    · exact base64Encode_no_colon _ c h
    · cases ls
      · simp only [LineSep.toBytes, LF, List.mem_singleton] at h
        rw [h]; decide
      · simp only [LineSep.toBytes, CRLF, List.mem_cons, List.not_mem_nil, or_false] at h
        rcases h with h | h <;> rw [h] <;> decide

theorem attachmentHeader_zero (env : Env) (ls : LineSep) (a : Attachment)
    (hname : ¬ str "Bcc:" <:+: a.Filename)
    (htype : ¬ str "Bcc:" <:+: env.typeByExtension (Ext a.Filename)) :
    bccRun 0 (attachmentHeader env ls.toBytes a) = 0 := by
  have hsep := resets_sep ls
  have hsep0 := zero_of_resets hsep
  have hdq : Resets DQ := by decide
  have hfile := hdq _ (encode_clean ls a.Filename hname)
  have l1 : bccRun 0 (str "Content-Type: message/rfc822") = 0 := by decide!
  have l2 : bccRun 0 (str "Content-Disposition: inline; filename=") = 0 := by decide!
  have l3 : bccRun 0 DQ = 0 := by decide!
  have l4 : bccRun 0 (str "Content-Type: ") = 0 := by decide!
  have l5 : bccRun 0 (str "Content-Transfer-Encoding: base64") = 0 := by decide!
  have l6 : bccRun 0 (str "Content-Disposition: attachment;") = 0 := by decide!
  have l7 : bccRun 0 (str " filename=") = 0 := by decide!
  have l8 : bccRun 0 (str "application/octet-stream") ≠ 4 := by decide!
  have htype0 : bccRun 0 (if env.typeByExtension (Ext a.Filename) = [] then
      str "application/octet-stream" else env.typeByExtension (Ext a.Filename)) ≠ 4 := by
    split_ifs
    · exact l8
    · exact bccRun_ne_of_absent htype
  unfold attachmentHeader
  split_ifs with hin
  · simp only [bccRun_append, l1, l2, l3, hsep0, hfile]
  · simp only [bccRun_append, l4, l5, l6, l7, l3, hsep0, hfile, hsep _ htype0]

theorem writeAttachment_zero (env : Env) (ls : LineSep) (a : Attachment) (part : Bytes)
    (hname : ¬ str "Bcc:" <:+: a.Filename)
    (htype : ¬ str "Bcc:" <:+: env.typeByExtension (Ext a.Filename))
    (hdata : a.Inline = true → ¬ str "Bcc:" <:+: a.Data)
    (hp : writeAttachment env ls.toBytes a = some part) :
    bccRun 0 part = 0 := by
  have hsep := resets_sep ls
  have hsep0 := zero_of_resets hsep
  have l1 : bccRun 0 (str "--") = 0 := by decide!
  have l2 : bccRun 0 boundary = 0 := by decide!
  simp only [writeAttachment, Option.map_eq_some'] at hp
  obtain ⟨payload, hpay, hpart⟩ := hp
  have hclean := attachmentPayload_clean ls a payload hdata hpay
  rw [← hpart]
  simp only [bccRun_append, hsep0, l1, l2, attachmentHeader_zero env ls a hname htype,
    hsep _ hclean]

theorem writeAttachments_zero (env : Env) (ls : LineSep) :
    ∀ (atts : List Attachment) (parts : Bytes),
      (∀ a ∈ atts, ¬ str "Bcc:" <:+: a.Filename ∧
        ¬ str "Bcc:" <:+: env.typeByExtension (Ext a.Filename) ∧
        (a.Inline = true → ¬ str "Bcc:" <:+: a.Data)) →
      writeAttachments env ls.toBytes atts = some parts → bccRun 0 parts = 0 := by
  intro atts
  induction atts with
  | nil =>
    intro parts _ h
    simp only [writeAttachments, Option.some.injEq] at h
    rw [← h]; rfl
  | cons a rest ih =>
    intro parts hall h
    simp only [writeAttachments] at h
    cases hw : writeAttachment env ls.toBytes a with
    | none => simp [hw] at h
    | some part =>
      simp only [hw, Option.map_eq_some'] at h
      obtain ⟨tail, htail, hparts⟩ := h
      obtain ⟨h1, h2, h3⟩ := hall a (List.mem_cons_self _ _)
      rw [← hparts]
      exact bccRun_zero_append (writeAttachment_zero env ls a part h1 h2 h3 hw)
        (ih tail (fun b hb => hall b (List.mem_cons_of_mem _ hb)) htail)

theorem headers_zero (env : Env) (ls : LineSep) (m : Message)
    (hfrom : ¬ str "Bcc:" <:+: env.addressString m.From)
    (hdate : ¬ str "Bcc:" <:+: env.now)
    (hto : ∀ r ∈ m.To, ¬ str "Bcc:" <:+: r)
    (hcc : ∀ r ∈ m.Cc, ¬ str "Bcc:" <:+: r)
    (hsubject : ¬ str "Bcc:" <:+: m.Subject)
    (hreply : ¬ str "Bcc:" <:+: m.ReplyTo) :
    bccRun 0 (headers env ls.toBytes m) = 0 := by
  have hsep := resets_sep ls
  have hsep0 := zero_of_resets hsep
  have l1 : bccRun 0 (str "From: ") = 0 := by decide!
  have l2 : bccRun 0 (str "Date: ") = 0 := by decide!
  have l3 : bccRun 0 (str "To: ") = 0 := by decide!
  have l4 : bccRun 0 (str "Cc: ") = 0 := by decide!
  have l5 : bccRun 0 (str "Subject: ") = 0 := by decide!
  have l6 : bccRun 0 (str "Reply-To: ") = 0 := by decide!
  have l7 : bccRun 0 (str "MIME-Version: 1.0") = 0 := by decide!
  have f1 := hsep _ (bccRun_ne_of_absent hfrom)
  have f2 := hsep _ (bccRun_ne_of_absent hdate)
  have f3 := hsep _ (bccRun_join m.To hto)
  have f4 := hsep _ (bccRun_join m.Cc hcc)
  have f5 := hsep _ (encode_clean ls m.Subject hsubject)
  have f6 := hsep _ (bccRun_ne_of_absent hreply)
  unfold headers
  split_ifs <;>
    simp only [bccRun_append, bccRun_nil, l1, l2, l3, l4, l5, l6, l7, f1, f2, f3, f4, f5, f6,
      hsep0]

/-- C7 as amended: when no text that `bytes` copies into its output (the
rendered From address, the date, the elements of To and Cc, Subject, ReplyTo,
BodyContentType, Body, and for every attachment its file name, the MIME type
found for it and, when it is inline, its data) contains `Bcc:`, the output
contains no occurrence of `Bcc:`, whatever the Bcc field holds. -/
theorem bytes_no_bcc (m : Message) (env : Env) (ls : LineSep) (out : Bytes)
    (hfrom : ¬ str "Bcc:" <:+: env.addressString m.From)
    (hdate : ¬ str "Bcc:" <:+: env.now)
    (hto : ∀ r ∈ m.To, ¬ str "Bcc:" <:+: r)
    (hcc : ∀ r ∈ m.Cc, ¬ str "Bcc:" <:+: r)
    (hsubject : ¬ str "Bcc:" <:+: m.Subject)
    (hreply : ¬ str "Bcc:" <:+: m.ReplyTo)
    (hbct : ¬ str "Bcc:" <:+: m.BodyContentType)
    (hbody : ¬ str "Bcc:" <:+: m.Body)
    (hatt : ∀ a ∈ m.Attachments.map Prod.snd, ¬ str "Bcc:" <:+: a.Filename ∧
      ¬ str "Bcc:" <:+: env.typeByExtension (Ext a.Filename) ∧
      (a.Inline = true → ¬ str "Bcc:" <:+: a.Data))
    (hout : m.bytes env ls.toBytes = some out) :
    ¬ str "Bcc:" <:+: out := by
  have hsep := resets_sep ls
  have hsep0 := zero_of_resets hsep
  have l1 : bccRun 0 (str "Content-Type: multipart/mixed; boundary=") = 0 := by decide!
  have l2 : bccRun 0 DQ = 0 := by decide!
  have l3 : bccRun 0 boundary = 0 := by decide!
  have l4 : bccRun 0 (str "--") = 0 := by decide!
  have l5 : bccRun 0 (str "Content-Type: ") = 0 := by decide!
  have l6 : Resets (str "; charset=utf-8") := by decide!
  have f1 := l6 _ (bccRun_ne_of_absent hbct)
  have f2 := hsep _ (bccRun_ne_of_absent hbody)
  have hh := headers_zero env ls m hfrom hdate hto hcc hsubject hreply
  have hzero : bccRun 0 out = 0 := by
    unfold Message.bytes at hout
    by_cases hlen : m.Attachments.length > 0
    · simp only [hlen, if_true] at hout
      cases hw : writeAttachments env ls.toBytes (m.Attachments.map Prod.snd) with
      | none => simp [hw] at hout
      | some parts =>
        simp only [hw, Option.some.injEq] at hout
        have hparts := writeAttachments_zero env ls _ parts hatt hw
        rw [← hout]
        simp only [bccRun_append, hh, l1, l2, l3, l4, l5, f1, f2, hsep0, hparts]
    · simp only [hlen, if_false, Option.some.injEq] at hout
      rw [← hout]
      simp only [bccRun_append, hh, l5, f1, f2, hsep0]
  intro hin
  rw [bccRun_of_occurs hin] at hzero
  exact absurd hzero (by decide)

theorem not_infix_of_bccRun {s : Bytes} (h : bccRun 0 s ≠ 4) : ¬ str "Bcc:" <:+: s :=
  fun hin => h (bccRun_of_occurs hin)

theorem not_infix_of_all (l : List Bytes) (h : l.all (fun r => bccRun 0 r != 4) = true) :
    ∀ r ∈ l, ¬ str "Bcc:" <:+: r := by
  intro r hr
  have := List.all_eq_true.1 h r hr
  exact not_infix_of_bccRun (by simpa using this)

/-- C7, as stated, fails: the message whose subject is `Bcc: x` is serialized,
with either line separator, with the header line `Subject: Bcc: x`, so its
output contains `Bcc:`. -/
theorem bcc_in_output_of_subject :
    (∃ out, bccSubjectMsg.bytes testEnv LF = some out ∧ str "Bcc:" <:+: out) ∧
    (∃ out, bccSubjectMsg.bytes testEnv CRLF = some out ∧ str "Bcc:" <:+: out) := by
  have h1 : (bccSubjectMsg.bytes testEnv LF).map (bccRun 0) = some 4 := by decide!
  have h2 : (bccSubjectMsg.bytes testEnv CRLF).map (bccRun 0) = some 4 := by decide!
  simp only [Option.map_eq_some'] at h1 h2
  obtain ⟨o1, ho1, hr1⟩ := h1
  obtain ⟨o2, ho2, hr2⟩ := h2
  exact ⟨⟨o1, ho1, infix_of_bccRun hr1⟩, ⟨o2, ho2, infix_of_bccRun hr2⟩⟩

/-- Scenario S3 with an attachment as an instance of the amended C7: the Bcc
recipient `c@x` is in the message and `Bcc:` is not in the output. -/
theorem bytes_no_bcc_witness :
    s3AttMsg.Bcc = [str "c@x"] ∧
    s3AttMsg.bytes testEnv CRLF = some s3AttOut ∧
    ¬ str "Bcc:" <:+: s3AttOut :=
  ⟨by decide!, by decide!,
   bytes_no_bcc s3AttMsg testEnv .crlf s3AttOut
     (not_infix_of_bccRun (by decide!)) (not_infix_of_bccRun (by decide!))
     (not_infix_of_all _ (by decide!)) (not_infix_of_all _ (by decide!))
     (not_infix_of_bccRun (by decide!)) (not_infix_of_bccRun (by decide!))
     (not_infix_of_bccRun (by decide!)) (not_infix_of_bccRun (by decide!))
     (fun a ha => by
       have ha1 : a = ⟨str "a.txt", str "first", false⟩ := by
         have hl : s3AttMsg.Attachments.map Prod.snd = [⟨str "a.txt", str "first", false⟩] := by
           decide!
         rw [hl] at ha
         exact List.mem_singleton.1 ha
       subst ha1
       exact ⟨not_infix_of_bccRun (by decide!), not_infix_of_bccRun (by decide!),
         fun h => absurd h (by decide)⟩)
     (by decide!)⟩

/-! ## Independence of Bcc -/

/-- C19: two messages that differ only in Bcc have the same serialization, for
the same environment (time included), line separator and attachment order: the
same output, or a failure for both. -/
theorem bytes_bcc_independent (m1 m2 : Message) (env : Env) (sep : Bytes)
    (hfrom : m1.From = m2.From) (hto : m1.To = m2.To) (hcc : m1.Cc = m2.Cc)
    (hreply : m1.ReplyTo = m2.ReplyTo) (hsubject : m1.Subject = m2.Subject)
    (hbody : m1.Body = m2.Body) (hbct : m1.BodyContentType = m2.BodyContentType)
    (hatt : m1.Attachments = m2.Attachments) :
    m1.bytes env sep = m2.bytes env sep := by
  cases m1
  cases m2
  simp only at hfrom hto hcc hreply hsubject hbody hbct hatt
  subst hfrom hto hcc hreply hsubject hbody hbct hatt
  rfl

/-- Scenario S3 with and without its Bcc recipient as an instance of C19. -/
theorem bytes_bcc_independent_witness :
    s3Msg.Bcc ≠ ({ s3Msg with Bcc := [] } : Message).Bcc ∧
    s3Msg.bytes testEnv CRLF = ({ s3Msg with Bcc := [] } : Message).bytes testEnv CRLF :=
  ⟨by decide!,
   bytes_bcc_independent s3Msg { s3Msg with Bcc := [] } testEnv CRLF rfl rfl rfl rfl rfl rfl rfl
     rfl⟩

/-! ## Exact failure condition -/

theorem base64Encode_length (d : Bytes) : (base64Encode d).length = EncodedLen d.length := by
  unfold EncodedLen
  induction d using base64Encode.induct with
  | case1 a b c rest ih =>
    simp only [base64Encode, List.length_cons, ih]
    omega
  | case2 a b => simp [base64Encode]
  | case3 a => simp [base64Encode]
  | case4 => rfl

theorem wrapBase64_eq_none_iff (sep : Bytes) :
    ∀ (n : Nat) (e : Bytes), e.length ≤ n →
      (wrapBase64 sep e = none ↔ e.length % 76 > 60) := by
  intro n
  induction n with
  | zero =>
    intro e hn
    rw [wrapBase64_eq]
    have h60 : ¬ e.length > 60 := by omega
    simp only [h60, if_false]
    constructor
    · intro h; cases h
    · intro h; omega
  | succ n ih =>
    intro e hn
    rw [wrapBase64_eq]
    by_cases h60 : e.length > 60
    · simp only [h60, if_true, slicePrefix]
      by_cases h76 : 76 ≤ e.length
      · simp only [h76, if_true, Option.map_eq_none']
        rw [ih (e.drop 76) (by simp only [List.length_drop]; omega)]
        simp only [List.length_drop]
        constructor <;> intro h <;> omega
      · simp only [h76, if_false, true_iff]
        omega
    · simp only [h60, if_false]
      constructor
      · intro h; cases h
      · intro h; omega

theorem attachmentPayload_eq_none_iff (sep : Bytes) (a : Attachment) :
    attachmentPayload sep a = none ↔
      a.Inline = false ∧ EncodedLen a.Data.length % 76 > 60 := by
  unfold attachmentPayload
  by_cases hin : a.Inline = true
  · simp [hin]
  · have hf : a.Inline = false := by simpa using hin
    simp only [hf, Bool.false_eq_true, if_false, true_and]
    rw [wrapBase64_eq_none_iff sep _ _ le_rfl, base64Encode_length]

theorem encodedLen_mod (n : Nat) :
    EncodedLen n % 76 > 60 ↔ 46 ≤ n % 57 ∧ n % 57 ≤ 54 := by
  unfold EncodedLen
  omega

/-- C18: `bytes` fails exactly when some attachment that is not inline has a
base64 length `L = 4 * ceil(len(Data) / 3)` with `L mod 76 > 60`, that is, when
`len(Data) mod 57` lies between 46 and 54; nothing else makes it fail. -/
theorem bytes_fails_iff (m : Message) (env : Env) (sep : Bytes) :
    (m.bytes env sep = none ↔
      ∃ a ∈ m.Attachments.map Prod.snd,
        a.Inline = false ∧ EncodedLen a.Data.length % 76 > 60) ∧
    (m.bytes env sep = none ↔
      ∃ a ∈ m.Attachments.map Prod.snd,
        a.Inline = false ∧ 46 ≤ a.Data.length % 57 ∧ a.Data.length % 57 ≤ 54) ∧
    (∀ n, EncodedLen n = 4 * ((n + 2) / 3)) := by
  refine ⟨?_, ?_, fun n => by unfold EncodedLen; omega⟩
  · rw [bytes_eq_none]
    simp only [attachmentPayload_eq_none_iff]
  · rw [bytes_eq_none]
    simp only [attachmentPayload_eq_none_iff, encodedLen_mod]

/-! ## Inline attachments -/

/-- C13: an inline attachment never makes `bytes` fail, and in the output its
part is, after the opening delimiter, exactly the Content-Type
`message/rfc822`, the Content-Disposition with the encoded file name, a blank
line and the data itself, followed by the separator and delimiter that end
the part. -/
theorem inline_part (m : Message) (env : Env) (sep out : Bytes) (a : Attachment)
    (hout : m.bytes env sep = some out)
    (ha : a ∈ m.Attachments.map Prod.snd) (hinline : a.Inline = true) :
    attachmentPayload sep a = some a.Data ∧
    ∃ pre post,
      out = pre ++ (sep ++ sep ++ str "--" ++ boundary ++ sep) ++
        (str "Content-Type: message/rfc822" ++ sep ++
         str "Content-Disposition: inline; filename=" ++ DQ ++ encode a.Filename sep ++ DQ ++
         sep ++ sep) ++
        a.Data ++ (sep ++ str "--" ++ boundary) ++ post := by
  have hpay : attachmentPayload sep a = some a.Data := by
    simp [attachmentPayload, hinline]
  refine ⟨hpay, ?_⟩
  obtain ⟨pre, payload, post, hp, hout'⟩ := bytes_part m env sep out hout a ha
  rw [hpay, Option.some.injEq] at hp
  subst hp
  refine ⟨pre, post, ?_⟩
  rw [hout']
  simp only [attachmentHeader, hinline, if_true]

/-- Scenario S4 as an instance of C13. -/
theorem inline_part_witness :
    inlineMsg.bytes testEnv CRLF = some inlineOut ∧
    attachmentPayload CRLF ⟨str "note.eml", inlineData, true⟩ = some inlineData ∧
    ∃ pre post,
      inlineOut = pre ++ (CRLF ++ CRLF ++ str "--" ++ boundary ++ CRLF) ++
        (str "Content-Type: message/rfc822" ++ CRLF ++
         str "Content-Disposition: inline; filename=" ++ DQ ++ encode (str "note.eml") CRLF ++
         DQ ++ CRLF ++ CRLF) ++
        inlineData ++ (CRLF ++ str "--" ++ boundary) ++ post :=
  ⟨by decide!,
   inline_part inlineMsg testEnv CRLF inlineOut ⟨str "note.eml", inlineData, true⟩
     (by decide!) (by decide!) rfl⟩

/-! ## Width of the base64 lines -/

theorem intercalate_cons_cons (sep a : Bytes) (l : List Bytes) (hl : l ≠ []) :
    sep.intercalate (a :: l) = a ++ sep ++ sep.intercalate l := by
  cases l with
  | nil => exact absurd rfl hl
  | cons b l => simp [List.intercalate]

theorem intercalate_singleton (sep a : Bytes) : sep.intercalate [a] = a := by
  simp [List.intercalate]

theorem cut76_lines (sep : Bytes) :
    ∀ (n : Nat) (e : Bytes), e.length ≤ n →
      ∃ lines : List Bytes, lines ≠ [] ∧ cut76 sep e = sep.intercalate lines ∧
        lines.flatten = e ∧ (∀ l ∈ lines.dropLast, l.length = 76) ∧
        (∀ l, lines.getLast? = some l → l.length < 76) := by
  intro n
  induction n with
  | zero =>
    intro e hn
    have h76 : e.length < 76 := by omega
    refine ⟨[e], by simp, ?_, by simp, by simp, ?_⟩
    · rw [cut76_eq, intercalate_singleton]; simp only [h76, if_true]
    · intro l hl
      simp only [List.getLast?_singleton, Option.some.injEq] at hl
      rw [← hl]; exact h76
  | succ n ih =>
    intro e hn
    by_cases h76 : e.length < 76
    · refine ⟨[e], by simp, ?_, by simp, by simp, ?_⟩
      · rw [cut76_eq, intercalate_singleton]; simp only [h76, if_true]
      · intro l hl
        simp only [List.getLast?_singleton, Option.some.injEq] at hl
        rw [← hl]; exact h76
    · obtain ⟨lines, hne, hcut, hflat, hfull, hlast⟩ :=
        ih (e.drop 76) (by simp only [List.length_drop]; omega)
      refine ⟨e.take 76 :: lines, by simp, ?_, ?_, ?_, ?_⟩
      · rw [cut76_eq, intercalate_cons_cons _ _ _ hne, hcut]
        simp only [h76, if_false]
      · simp only [List.flatten_cons, hflat, List.take_append_drop]
      · intro l hl
        rw [List.dropLast_cons_of_ne_nil hne] at hl
        rcases List.mem_cons.1 hl with h | h
        · rw [h, List.length_take]; omega
        · exact hfull l h
      · intro l hl
        obtain ⟨b, rest, hb⟩ := List.exists_cons_of_ne_nil hne
        rw [hb, List.getLast?_cons_cons, ← hb] at hl
        exact hlast l hl

/-- C12: in a successful serialization the payload of an attachment that is not
inline, written between its headers and the separator and delimiter after it,
is a sequence of lines joined by the line separator; no line contains CR or LF,
the lines together are the base64 text of the data, every line but the last
has exactly 76 octets and the last has at most 76 (in fact fewer), with no
separator after it. -/
theorem base64_line_width (m : Message) (env : Env) (ls : LineSep) (out : Bytes)
    (a : Attachment) (hout : m.bytes env ls.toBytes = some out)
    (ha : a ∈ m.Attachments.map Prod.snd) (hinline : a.Inline = false) :
    ∃ (pre post : Bytes) (lines : List Bytes),
      out = pre ++ attachmentHeader env ls.toBytes a ++ ls.toBytes.intercalate lines ++
        (ls.toBytes ++ str "--" ++ boundary) ++ post ∧
      lines ≠ [] ∧
      (∀ l ∈ lines, ∀ c ∈ l, c ≠ 0x0A ∧ c ≠ 0x0D) ∧
      lines.flatten = base64Encode a.Data ∧
      (∀ l ∈ lines.dropLast, l.length = 76) ∧
      (∀ l, lines.getLast? = some l → l.length ≤ 76 ∧ l.length < 76) := by
  obtain ⟨pre, payload, post, hpay, hp⟩ := bytes_part m env ls.toBytes out hout a ha
  simp only [attachmentPayload, hinline, Bool.false_eq_true, if_false] at hpay
  have hcut := wrapBase64_eq_some_cut76 ls.toBytes _ _ payload le_rfl hpay
  obtain ⟨lines, hne, hlines, hflat, hfull, hlast⟩ :=
    cut76_lines ls.toBytes _ (base64Encode a.Data) le_rfl
  refine ⟨pre ++ (ls.toBytes ++ ls.toBytes ++ str "--" ++ boundary ++ ls.toBytes), post, lines,
    ?_, hne, ?_, hflat, hfull, fun l hl => ⟨Nat.le_of_lt (hlast l hl), hlast l hl⟩⟩
  · rw [hp, hcut, hlines]
  · intro l hl c hc
    apply base64Encode_no_sep a.Data c
    rw [← hflat]
    exact List.mem_flatten.2 ⟨l, hl, hc⟩

/-- The message of `TestEncoding`, serialized with LF, as an instance of C12. -/
theorem base64_line_width_witness :
    testMsg.bytes testEnv LF = some testExpected ∧
    ∃ (pre post : Bytes) (lines : List Bytes),
      testExpected = pre ++ attachmentHeader testEnv LF ⟨testFilename, testData, false⟩ ++
        LF.intercalate lines ++ (LF ++ str "--" ++ boundary) ++ post ∧
      lines ≠ [] ∧
      (∀ l ∈ lines, ∀ c ∈ l, c ≠ 0x0A ∧ c ≠ 0x0D) ∧
      lines.flatten = base64Encode testData ∧
      (∀ l ∈ lines.dropLast, l.length = 76) ∧
      (∀ l, lines.getLast? = some l → l.length ≤ 76 ∧ l.length < 76) :=
  ⟨by decide!,
   base64_line_width testMsg testEnv .lf testExpected ⟨testFilename, testData, false⟩
     (by decide!) (by decide!) rfl⟩

/-! ## Message builder -/

theorem mapLookup_mapAssign_self (l : List (Bytes × Attachment)) (k : Bytes) (v : Attachment) :
    mapLookup (mapAssign l k v) k = some v := by
  induction l with
  | nil => simp [mapAssign, mapLookup]
  | cons e rest ih =>
    obtain ⟨k0, v0⟩ := e
    by_cases h : k0 = k
    · simp [mapAssign, mapLookup, h]
    · simp [mapAssign, mapLookup, h, ih]

theorem mapLookup_mapAssign_other (l : List (Bytes × Attachment)) (k k' : Bytes)
    (v : Attachment) (hk : k' ≠ k) :
    mapLookup (mapAssign l k v) k' = mapLookup l k' := by
  induction l with
  | nil => simp [mapAssign, mapLookup, Ne.symm hk]
  | cons e rest ih =>
    obtain ⟨k0, v0⟩ := e
    by_cases h : k0 = k
    · subst h
      simp [mapAssign, mapLookup, Ne.symm hk]
    · by_cases h' : k0 = k'
      · subst h'
        simp [mapAssign, mapLookup, h]
      · simp [mapAssign, mapLookup, h, h', ih]

/-- C14: `AttachBuffer` returns no error; afterwards the attachment under the
key `f` is `{Filename: f, Data: b, Inline: i}`, whatever was stored there
before, the attachment under every other key is the one stored before, and
the other fields of the message are unchanged.  The attachment map of a
`Message` of this development is always allocated, as it is in every message
built by `NewMessage` or `NewHTMLMessage`. -/
theorem AttachBuffer_frame (m : Message) (f b : Bytes) (i : Bool) :
    (m.AttachBuffer f b i).2 = none ∧
    mapLookup (m.AttachBuffer f b i).1.Attachments f = some ⟨f, b, i⟩ ∧
    (∀ k, k ≠ f →
      mapLookup (m.AttachBuffer f b i).1.Attachments k = mapLookup m.Attachments k) ∧
    (m.AttachBuffer f b i).1.From = m.From ∧
    (m.AttachBuffer f b i).1.To = m.To ∧
    (m.AttachBuffer f b i).1.Cc = m.Cc ∧
    (m.AttachBuffer f b i).1.Bcc = m.Bcc ∧
    (m.AttachBuffer f b i).1.ReplyTo = m.ReplyTo ∧
    (m.AttachBuffer f b i).1.Subject = m.Subject ∧
    (m.AttachBuffer f b i).1.Body = m.Body ∧
    (m.AttachBuffer f b i).1.BodyContentType = m.BodyContentType :=
  ⟨rfl, mapLookup_mapAssign_self _ _ _,
   fun _ hk => mapLookup_mapAssign_other _ _ _ _ hk,
   rfl, rfl, rfl, rfl, rfl, rfl, rfl, rfl⟩

theorem dropWhile_head_false (p : Byte → Bool) :
    ∀ (l : Bytes) (a : Byte) (t : Bytes), l.dropWhile p = a :: t → p a = false := by
  intro l
  induction l with
  | nil => intro a t h; simp at h
  | cons b l ih =>
    intro a t h
    by_cases hb : p b = true
    · rw [List.dropWhile_cons_of_pos hb] at h
      exact ih a t h
    · rw [List.dropWhile_cons_of_neg hb] at h
      simp only [List.cons.injEq] at h
      rw [← h.1]
      simpa using hb

/-- The file component of `filepath.Split` is the part of the path after its
last separator. -/
theorem splitFile_append (dir name : Bytes) (hname : (0x2F : Byte) ∉ name)
    (hdir : dir = [] ∨ ∃ d, dir = d ++ [0x2F]) :
    splitFile (dir ++ name) = name := by
  unfold splitFile
  have hall : ∀ c ∈ name.reverse, (fun c : Byte => c != 0x2F) c = true := by
    intro c hc
    have hc' : c ∈ name := List.mem_reverse.1 hc
    have : c ≠ 0x2F := fun h => hname (h ▸ hc')
    simpa using this
  rw [List.reverse_append, List.takeWhile_append_of_pos hall]
  have htail : dir.reverse.takeWhile (fun c : Byte => c != 0x2F) = [] := by
    rcases hdir with h | ⟨d, h⟩
    · rw [h]; rfl
    · rw [h, List.reverse_append]
      simp
  rw [htail, List.append_nil, List.reverse_reverse]

/-- Every path is a directory part, empty or ending with a separator, followed
by a name without a separator: the two components of `filepath.Split`. -/
theorem path_split (path : Bytes) :
    ∃ dir name : Bytes, path = dir ++ name ∧ (0x2F : Byte) ∉ name ∧
      (dir = [] ∨ ∃ d, dir = d ++ [0x2F]) ∧ splitFile path = name := by
  let p : Byte → Bool := fun c => c != 0x2F
  have hsplit : path.reverse = path.reverse.takeWhile p ++ path.reverse.dropWhile p :=
    (List.takeWhile_append_dropWhile p path.reverse).symm
  have hpath : path = (path.reverse.dropWhile p).reverse ++ (path.reverse.takeWhile p).reverse := by
    have := congrArg List.reverse hsplit
    rwa [List.reverse_reverse, List.reverse_append] at this
  have hname : (0x2F : Byte) ∉ (path.reverse.takeWhile p).reverse := by
    intro h
    have h1 := List.mem_takeWhile_imp (List.mem_reverse.1 h)
    simp [p] at h1
  have hdir : (path.reverse.dropWhile p).reverse = [] ∨
      ∃ d, (path.reverse.dropWhile p).reverse = d ++ [0x2F] := by
    cases hd : path.reverse.dropWhile p with
    | nil => exact Or.inl rfl
    | cons a t =>
      have ha := dropWhile_head_false p _ a t hd
      have ha' : a = 0x2F := by simpa [p] using ha
      exact Or.inr ⟨t.reverse, by rw [List.reverse_cons, ha']⟩
  exact ⟨_, _, hpath, hname, hdir, rfl⟩

/-- On a message with an allocated attachment map, `attachOnMap` is `attach`. -/
theorem attachOnMap_allocated (m : Message) (fs : FileSystem) (file : Bytes) (i : Bool) :
    attachOnMap (some m.Attachments) fs file i =
      some (some (m.attach fs file i).1.Attachments, (m.attach fs file i).2) := by
  unfold attachOnMap Message.attach
  cases fs file <;> rfl

/-- C15 as amended (the attachment map is allocated, as in every message built
by `NewMessage` or `NewHTMLMessage`): for a path `dir ++ name` whose `name`
holds no separator and whose `dir` is empty or ends with a separator, so that
`name` is its last element, when the file cannot be read `Attach` and `Inline`
return the read error and leave the message as it was; when it is read with
contents `c`, they return no error, the attachment under the key `name` is
`{Filename: name, Data: c, Inline: false}` for `Attach` and the same with
`Inline: true` for `Inline`, the attachment under every other key is the one
stored before, and the other fields of the message are unchanged. -/
theorem attach_atomic (m : Message) (fs : FileSystem) (dir name : Bytes)
    (hname : (0x2F : Byte) ∉ name) (hdir : dir = [] ∨ ∃ d, dir = d ++ [0x2F]) :
    (∀ err, fs (dir ++ name) = .error err →
      m.Attach fs (dir ++ name) = (m, some err) ∧ m.Inline fs (dir ++ name) = (m, some err)) ∧
    (∀ c, fs (dir ++ name) = .ok c →
      (m.Attach fs (dir ++ name)).2 = none ∧ (m.Inline fs (dir ++ name)).2 = none ∧
      mapLookup (m.Attach fs (dir ++ name)).1.Attachments name = some ⟨name, c, false⟩ ∧
      mapLookup (m.Inline fs (dir ++ name)).1.Attachments name = some ⟨name, c, true⟩ ∧
      (∀ k, k ≠ name →
        mapLookup (m.Attach fs (dir ++ name)).1.Attachments k = mapLookup m.Attachments k ∧
        mapLookup (m.Inline fs (dir ++ name)).1.Attachments k = mapLookup m.Attachments k) ∧
      (∀ m', m' = (m.Attach fs (dir ++ name)).1 ∨ m' = (m.Inline fs (dir ++ name)).1 →
        m'.From = m.From ∧ m'.To = m.To ∧ m'.Cc = m.Cc ∧ m'.Bcc = m.Bcc ∧
        m'.ReplyTo = m.ReplyTo ∧ m'.Subject = m.Subject ∧ m'.Body = m.Body ∧
        m'.BodyContentType = m.BodyContentType)) := by
  have hfile : splitFile (dir ++ name) = name := splitFile_append dir name hname hdir
  constructor
  · intro err h
    simp [Message.Attach, Message.Inline, Message.attach, h]
  · intro c h
    have hA : m.Attach fs (dir ++ name) =
        (({ m with
            Attachments := mapAssign m.Attachments name ⟨name, c, false⟩ } : Message),
          none) := by
      simp [Message.Attach, Message.attach, h, hfile]
    have hI : m.Inline fs (dir ++ name) =
        (({ m with
            Attachments := mapAssign m.Attachments name ⟨name, c, true⟩ } : Message),
          none) := by
      simp [Message.Inline, Message.attach, h, hfile]
    rw [hA, hI]
    refine ⟨rfl, rfl, mapLookup_mapAssign_self _ _ _, mapLookup_mapAssign_self _ _ _,
      fun k hk => ⟨mapLookup_mapAssign_other _ _ _ _ hk, mapLookup_mapAssign_other _ _ _ _ hk⟩,
      ?_⟩
    rintro m' (rfl | rfl) <;> exact ⟨rfl, rfl, rfl, rfl, rfl, rfl, rfl, rfl⟩

/-- The readable file `dir/b.txt` and the unreadable `missing.eml` on scenario
S1 as an instance of the amended C15: the first is stored under `b.txt`, the
second leaves the message as it was. -/
theorem attach_atomic_witness :
    str "dir/" ++ str "b.txt" = str "dir/b.txt" ∧
    demoFs (str "dir/b.txt") = .ok (str "second") ∧
    demoFs (str "missing.eml") = .error (str "open: no such file or directory") ∧
    (s1Msg.Attach demoFs (str "dir/" ++ str "b.txt")).2 = none ∧
    mapLookup (s1Msg.Attach demoFs (str "dir/" ++ str "b.txt")).1.Attachments (str "b.txt") =
      some ⟨str "b.txt", str "second", false⟩ ∧
    mapLookup (s1Msg.Inline demoFs (str "dir/" ++ str "b.txt")).1.Attachments (str "b.txt") =
      some ⟨str "b.txt", str "second", true⟩ ∧
    s1Msg.Attach demoFs ([] ++ str "missing.eml") =
      (s1Msg, some (str "open: no such file or directory")) ∧
    s1Msg.Inline demoFs ([] ++ str "missing.eml") =
      (s1Msg, some (str "open: no such file or directory")) := by
  have hok : demoFs (str "dir/" ++ str "b.txt") = .ok (str "second") := by
    unfold demoFs
    rw [if_pos (by decide!)]
  have herr : demoFs ([] ++ str "missing.eml") =
      .error (str "open: no such file or directory") := by
    unfold demoFs
    rw [if_neg (by decide!)]
  have h1 := (attach_atomic s1Msg demoFs (str "dir/") (str "b.txt") (by decide!)
    (Or.inr ⟨str "dir", by decide!⟩)).2 (str "second") hok
  have h2 := (attach_atomic s1Msg demoFs [] (str "missing.eml") (by decide!)
    (Or.inl rfl)).1 _ herr
  exact ⟨by decide!, hok, herr, h1.1, h1.2.2.1, h1.2.2.2.1, h2.1, h2.2⟩

/-- C15, as stated, fails: on the zero value `Message{}`, whose attachment map
is nil, `Attach` and `Inline` of the readable file `dir/b.txt` do not return:
the assignment to an entry of the nil map panics. -/
theorem attach_nil_map_panics :
    demoFs (str "dir/b.txt") = .ok (str "second") ∧
    attachOnMap none demoFs (str "dir/b.txt") false = none ∧
    attachOnMap none demoFs (str "dir/b.txt") true = none := by
  have hok : demoFs (str "dir/b.txt") = .ok (str "second") := by
    unfold demoFs
    rw [if_pos rfl]
  exact ⟨hok, by simp [attachOnMap, hok], by simp [attachOnMap, hok]⟩

/-! ## File names of stored attachments -/

theorem mapAssign_mem (l : List (Bytes × Attachment)) (k : Bytes) (v : Attachment) :
    ∀ e ∈ mapAssign l k v, e = (k, v) ∨ e ∈ l := by
  induction l with
  | nil => intro e he; simp [mapAssign] at he; exact Or.inl he
  | cons e0 rest ih =>
    obtain ⟨k0, v0⟩ := e0
    intro e he
    by_cases h : k0 = k
    · simp only [mapAssign, h, if_true, List.mem_cons] at he
      rcases he with he | he
      · exact Or.inl he
      · exact Or.inr (List.mem_cons_of_mem _ he)
    · simp only [mapAssign, h, if_false, List.mem_cons] at he
      rcases he with he | he
      · exact Or.inr (by rw [he]; exact List.mem_cons_self _ _)
      · rcases ih e he with h1 | h1
        · exact Or.inl h1
        · exact Or.inr (List.mem_cons_of_mem _ h1)

theorem Call_run_named (fs : FileSystem) (m : Message) (c : Call) (hc : c.filename ≠ [])
    (hm : ∀ e ∈ m.Attachments, e.2.Filename ≠ []) :
    ∀ e ∈ (c.run fs m).Attachments, e.2.Filename ≠ [] := by
  cases c with
  | attachBuffer filename buf i =>
    intro e he
    rcases mapAssign_mem _ _ _ e he with h | h
    · rw [h]; exact hc
    · exact hm e h
  | attachFile file =>
    intro e he
    simp only [Call.run, Message.Attach, Message.attach] at he
    cases hfs : fs file with
    | error err => rw [hfs] at he; exact hm e he
    | ok data =>
      rw [hfs] at he
      rcases mapAssign_mem _ _ _ e he with h | h
      · rw [h]; exact hc
      · exact hm e h
  | inlineFile file =>
    intro e he
    simp only [Call.run, Message.Inline, Message.attach] at he
    cases hfs : fs file with
    | error err => rw [hfs] at he; exact hm e he
    | ok data =>
      rw [hfs] at he
      rcases mapAssign_mem _ _ _ e he with h | h
      · rw [h]; exact hc
      · exact hm e h

theorem runCalls_named (fs : FileSystem) (calls : List Call) :
    ∀ m : Message, (∀ c ∈ calls, c.filename ≠ []) →
      (∀ e ∈ m.Attachments, e.2.Filename ≠ []) →
      ∀ e ∈ (runCalls fs m calls).Attachments, e.2.Filename ≠ [] := by
  induction calls with
  | nil => intro m _ hm; exact hm
  | cons c rest ih =>
    intro m hcalls hm
    exact ih (c.run fs m) (fun c' hc' => hcalls c' (List.mem_cons_of_mem _ hc'))
      (Call_run_named fs m c (hcalls c (List.mem_cons_self _ _)) hm)

/-- C16 as amended: in a message reached from `NewMessage` or `NewHTMLMessage`
by calls of `AttachBuffer`, `Attach` and `Inline`, every stored attachment has
a non-empty Filename, provided every `AttachBuffer` call is given a non-empty
file name and every `Attach` or `Inline` call a path whose last element is not
empty. -/
theorem stored_filenames_nonempty (fs : FileSystem) (subject body : Bytes) (calls : List Call)
    (hcalls : ∀ c ∈ calls, c.filename ≠ []) :
    (∀ e ∈ (runCalls fs (NewMessage subject body) calls).Attachments, e.2.Filename ≠ []) ∧
    (∀ e ∈ (runCalls fs (NewHTMLMessage subject body) calls).Attachments,
      e.2.Filename ≠ []) :=
  ⟨runCalls_named fs calls _ hcalls (fun e he => by cases he),
   runCalls_named fs calls _ hcalls (fun e he => by cases he)⟩

/-- Three calls on a new message as an instance of the amended C16: two
attachments are stored, both with a non-empty Filename. -/
theorem stored_filenames_nonempty_witness :
    (∀ c ∈ demoCalls, c.filename ≠ []) ∧
    (runCalls demoFs (NewMessage (str "Subject") (str "Body")) demoCalls).Attachments.length = 2 ∧
    (∀ e ∈ (runCalls demoFs (NewMessage (str "Subject") (str "Body")) demoCalls).Attachments,
      e.2.Filename ≠ []) ∧
    (∀ e ∈ (runCalls demoFs (NewHTMLMessage (str "Subject") (str "Body")) demoCalls).Attachments,
      e.2.Filename ≠ []) :=
  ⟨by decide!, by decide!,
   stored_filenames_nonempty demoFs (str "Subject") (str "Body") demoCalls (by decide!)⟩

/-- C16, as stated, fails: after `AttachBuffer` with the empty file name on a
new message, the stored attachment has an empty Filename. -/
theorem empty_filename_stored :
    (runCalls demoFs (NewMessage (str "Subject") (str "Body")) emptyNameCalls).Attachments =
      [([], ⟨[], str "data", false⟩)] ∧
    ∃ e ∈ (runCalls demoFs (NewMessage (str "Subject") (str "Body")) emptyNameCalls).Attachments,
      e.2.Filename = [] :=
  ⟨by decide!, ([], ⟨[], str "data", false⟩), by decide!, rfl⟩

/-! ## No line break passes through `encode` -/

theorem bEncodeLoop_forall (P : Byte → Prop) (hb : ∀ d, ∀ c ∈ base64Encode d, P c)
    (hs : ∀ c ∈ splitWord, P c) :
    ∀ (fuel currentLen : Nat) (pending rest : Bytes),
      ∀ c ∈ bEncodeLoop fuel currentLen pending rest, P c := by
  intro fuel
  induction fuel with
  | zero =>
    intro currentLen pending rest c hc
    exact hb _ c hc
  | succ n ih =>
    intro currentLen pending rest c hc
    rw [bEncodeLoop] at hc
    dsimp only at hc
    split_ifs at hc
    · exact hb _ c hc
    · exact ih _ _ _ c hc
    · simp only [List.mem_append] at hc
      rcases hc with (h | h) | h
      · exact hb _ c h
      · exact hs c h
      · exact ih _ _ _ c h

theorem BEncodingEncode_forall (P : Byte → Prop) (raw : Bytes)
    (hraw : needsEncoding raw = false → ∀ c ∈ raw, P c)
    (hb : ∀ d, ∀ c ∈ base64Encode d, P c)
    (hw : ∀ c ∈ openWord ++ closeWord ++ str " ", P c) :
    ∀ c ∈ BEncodingEncode raw, P c := by
  have hopen : ∀ c ∈ openWord, P c := fun c hc => hw c (by simp [hc])
  have hclose : ∀ c ∈ closeWord, P c := fun c hc => hw c (by simp [hc])
  have hsplit : ∀ c ∈ splitWord, P c := by
    intro c hc
    simp only [splitWord, List.mem_append] at hc
    apply hw c
    simp only [List.mem_append]
    tauto
  unfold BEncodingEncode
  split_ifs with h
  · exact hraw (by simpa using h)
  · intro c hc
    simp only [List.mem_append] at hc
    rcases hc with (hc | hc) | hc
    · exact hopen c hc
    · unfold bEncode at hc
      split_ifs at hc
      · exact hb _ c hc
      · exact bEncodeLoop_forall P hb hsplit _ _ _ _ c hc
    · exact hclose c hc

/-- The result of `mime.BEncoding.Encode` never contains CR or LF: text with
such an octet is encoded. -/
theorem BEncodingEncode_no_sep (raw : Bytes) :
    ∀ c ∈ BEncodingEncode raw, c ≠ 0x0A ∧ c ≠ 0x0D := by
  apply BEncodingEncode_forall (fun c => c ≠ 0x0A ∧ c ≠ 0x0D)
  · intro h c hc
    have := List.any_eq_false.1 h c hc
    constructor
    · rintro rfl; exact this (by decide)
    · rintro rfl; exact this (by decide)
  · exact base64Encode_no_sep
  · decide!

theorem encodeWordsLoop_segments (sep : Bytes) :
    ∀ (fuel : Nat) (enc : Bytes), ∃ segs : List Bytes, segs ≠ [] ∧
      encodeWordsLoop sep fuel enc = (sep ++ [0x20]).intercalate segs ∧
      ∀ s ∈ segs, ∀ c ∈ s, c ∈ enc := by
  have hsp : str " " = [0x20] := by decide
  intro fuel
  induction fuel with
  | zero =>
    intro enc
    exact ⟨[enc], by simp, by rw [encodeWordsLoop, intercalate_singleton], by simp⟩
  | succ n ih =>
    intro enc
    rw [encodeWordsLoop]
    cases hi : indexByte enc 0x20 with
    | none => exact ⟨[enc], by simp, by rw [intercalate_singleton], by simp⟩
    | some i =>
      obtain ⟨segs, hne, hloop, hmem⟩ := ih (enc.drop (i + 1))
      refine ⟨enc.take i :: segs, by simp, ?_, ?_⟩
      · simp only []
        rw [intercalate_cons_cons _ _ _ hne, hloop, hsp]
        simp only [List.append_assoc]
      · intro s hs c hc
        rcases List.mem_cons.1 hs with h | h
        · rw [h] at hc; exact List.mem_of_mem_take hc
        · exact List.mem_of_mem_drop (hmem s h c hc)

theorem encodeAsciiLoop_segments (sep : Bytes) :
    ∀ (fuel : Nat) (enc : Bytes), ∃ segs : List Bytes, segs ≠ [] ∧
      encodeAsciiLoop sep fuel enc = (sep ++ [0x20]).intercalate segs ∧
      ∀ s ∈ segs, ∀ c ∈ s, c ∈ enc := by
  have hsp : str " " = [0x20] := by decide
  intro fuel
  induction fuel with
  | zero =>
    intro enc
    exact ⟨[enc], by simp, by rw [encodeAsciiLoop, intercalate_singleton], by simp⟩
  | succ n ih =>
    intro enc
    rw [encodeAsciiLoop]
    split_ifs
    · obtain ⟨segs, hne, hloop, hmem⟩ := ih (enc.drop 60)
      refine ⟨enc.take 60 :: segs, by simp, ?_, ?_⟩
      · rw [intercalate_cons_cons _ _ _ hne, hloop, hsp]
        simp only [List.append_assoc]
      · intro s hs c hc
        rcases List.mem_cons.1 hs with h | h
        · rw [h] at hc; exact List.mem_of_mem_take hc
        · exact List.mem_of_mem_drop (hmem s h c hc)
    · exact ⟨[enc], by simp, by rw [intercalate_singleton], by simp⟩

theorem lfThenSpace_append (x y : Bytes) (hx : ∀ c ∈ x, c ≠ 0x0A) (hy : lfThenSpace y = true) :
    lfThenSpace (x ++ y) = true := by
  induction x with
  | nil => exact hy
  | cons a x ih =>
    have ha : a ≠ 0x0A := hx a (List.mem_cons_self _ _)
    have hrest := ih (fun c hc => hx c (List.mem_cons_of_mem _ hc))
    cases hxy : x ++ y with
    | nil => simp [lfThenSpace, hxy, ha]
    | cons d s =>
      rw [hxy] at hrest
      simp [lfThenSpace, hxy, ha, hrest]

theorem lfThenSpace_sep (ls : LineSep) (y : Bytes) (hy : lfThenSpace y = true) :
    lfThenSpace (ls.toBytes ++ [0x20] ++ y) = true := by
  have hsp : lfThenSpace (0x20 :: y) = true :=
    lfThenSpace_append [0x20] y (by decide!) hy
  cases ls with
  | lf =>
    show lfThenSpace (0x0A :: 0x20 :: y) = true
    rw [lfThenSpace, hsp]; rfl
  | crlf =>
    show lfThenSpace (0x0D :: 0x0A :: 0x20 :: y) = true
    rw [lfThenSpace, lfThenSpace, hsp]; rfl

theorem lfThenSpace_intercalate (ls : LineSep) (segs : List Bytes)
    (h : ∀ s ∈ segs, ∀ c ∈ s, c ≠ 0x0A ∧ c ≠ 0x0D) :
    lfThenSpace ((ls.toBytes ++ [0x20]).intercalate segs) = true := by
  induction segs with
  | nil => rfl
  | cons a segs ih =>
    have ha : ∀ c ∈ a, c ≠ 0x0A := fun c hc => (h a (List.mem_cons_self _ _) c hc).1
    have hrest := ih (fun s hs => h s (List.mem_cons_of_mem _ hs))
    cases segs with
    | nil =>
      rw [intercalate_singleton]
      have := lfThenSpace_append a [] ha rfl
      rwa [List.append_nil] at this
    | cons b segs =>
      rw [intercalate_cons_cons _ _ _ (by simp), List.append_assoc]
      exact lfThenSpace_append a _ ha (lfThenSpace_sep ls _ hrest)


/-- C20: for every raw text, with or without CR and LF in it, and either line
separator, what `encode` writes is a sequence of segments joined by the
separator followed by one space, and no segment contains CR or LF; hence every
LF in the written text is directly followed by a space. -/
theorem encode_segments (raw : Bytes) (ls : LineSep) :
    (∃ segs : List Bytes, segs ≠ [] ∧
      encode raw ls.toBytes = (ls.toBytes ++ [0x20]).intercalate segs ∧
      ∀ s ∈ segs, ∀ c ∈ s, c ≠ 0x0A ∧ c ≠ 0x0D) ∧
    lfThenSpace (encode raw ls.toBytes) = true := by
  have hsegs : ∃ segs : List Bytes, segs ≠ [] ∧
      encode raw ls.toBytes = (ls.toBytes ++ [0x20]).intercalate segs ∧
      ∀ s ∈ segs, ∀ c ∈ s, c ≠ 0x0A ∧ c ≠ 0x0D := by
    unfold encode
    simp only []
    split_ifs
    · obtain ⟨segs, hne, hloop, hmem⟩ := encodeWordsLoop_segments ls.toBytes
        ((BEncodingEncode raw).length + 1) (BEncodingEncode raw)
      exact ⟨segs, hne, hloop, fun s hs c hc => BEncodingEncode_no_sep raw c (hmem s hs c hc)⟩
    · obtain ⟨segs, hne, hloop, hmem⟩ := encodeAsciiLoop_segments ls.toBytes
        ((BEncodingEncode raw).length + 1) (BEncodingEncode raw)
      exact ⟨segs, hne, hloop, fun s hs c hc => BEncodingEncode_no_sep raw c (hmem s hs c hc)⟩
  refine ⟨hsegs, ?_⟩
  obtain ⟨segs, _, heq, hfree⟩ := hsegs
  rw [heq]
  exact lfThenSpace_intercalate ls segs hfree

/-! ## Parity of the LF and CR LF serializations -/

theorem crlfOf_append (x y : Bytes) : crlfOf (x ++ y) = crlfOf x ++ crlfOf y := by
  simp [crlfOf, List.flatMap_append]

theorem crlfOf_LF : crlfOf LF = CRLF := rfl

theorem crlfOf_nil : crlfOf [] = [] := rfl

theorem crlfOf_of_no_lf (s : Bytes) (h : (0x0A : Byte) ∉ s) : crlfOf s = s := by
  induction s with
  | nil => rfl
  | cons a s ih =>
    have ha : a ≠ 0x0A := fun h0 => h (by rw [h0]; exact List.mem_cons_self _ _)
    have hs : (0x0A : Byte) ∉ s := fun h0 => h (List.mem_cons_of_mem _ h0)
    have := ih hs
    simp only [crlfOf, List.flatMap_cons, ha, if_false, List.singleton_append] at this ⊢
    rw [this]

theorem no_lf_take {s : Bytes} (n : Nat) (h : (0x0A : Byte) ∉ s) : (0x0A : Byte) ∉ s.take n :=
  fun h0 => h (List.mem_of_mem_take h0)

theorem no_lf_drop {s : Bytes} (n : Nat) (h : (0x0A : Byte) ∉ s) : (0x0A : Byte) ∉ s.drop n :=
  fun h0 => h (List.mem_of_mem_drop h0)

theorem crlfOf_encodeWordsLoop :
    ∀ (fuel : Nat) (enc : Bytes), (0x0A : Byte) ∉ enc →
      crlfOf (encodeWordsLoop LF fuel enc) = encodeWordsLoop CRLF fuel enc := by
  have hsp : crlfOf (str " ") = str " " := by decide
  intro fuel
  induction fuel with
  | zero => intro enc h; exact crlfOf_of_no_lf enc h
  | succ n ih =>
    intro enc h
    rw [encodeWordsLoop, encodeWordsLoop]
    cases hi : indexByte enc 0x20 with
    | none => exact crlfOf_of_no_lf enc h
    | some i =>
      simp only [crlfOf_append, crlfOf_LF, hsp, ih _ (no_lf_drop _ h),
        crlfOf_of_no_lf _ (no_lf_take i h)]

theorem crlfOf_encodeAsciiLoop :
    ∀ (fuel : Nat) (enc : Bytes), (0x0A : Byte) ∉ enc →
      crlfOf (encodeAsciiLoop LF fuel enc) = encodeAsciiLoop CRLF fuel enc := by
  have hsp : crlfOf (str " ") = str " " := by decide
  intro fuel
  induction fuel with
  | zero => intro enc h; exact crlfOf_of_no_lf enc h
  | succ n ih =>
    intro enc h
    rw [encodeAsciiLoop, encodeAsciiLoop]
    split_ifs
    · simp only [crlfOf_append, crlfOf_LF, hsp, ih _ (no_lf_drop _ h),
        crlfOf_of_no_lf _ (no_lf_take 60 h)]
    · exact crlfOf_of_no_lf enc h

/-- What `encode` writes with CR LF is what it writes with LF, every LF
replaced by CR LF; this holds for every raw text. -/
theorem crlfOf_encode (raw : Bytes) : crlfOf (encode raw LF) = encode raw CRLF := by
  have h : (0x0A : Byte) ∉ BEncodingEncode raw :=
    fun h0 => (BEncodingEncode_no_sep raw _ h0).1 rfl
  unfold encode
  simp only []
  split_ifs
  · exact crlfOf_encodeWordsLoop _ _ h
  · exact crlfOf_encodeAsciiLoop _ _ h

theorem crlfOf_wrapLoop :
    ∀ (fuel : Nat) (e : Bytes), (0x0A : Byte) ∉ e →
      (wrapLoop LF fuel e).map crlfOf = wrapLoop CRLF fuel e := by
  intro fuel
  induction fuel with
  | zero => intro e _; rfl
  | succ n ih =>
    intro e h
    rw [wrapLoop, wrapLoop]
    split_ifs with h60
    · unfold slicePrefix
      split_ifs with h76
      · simp only []
        rw [← ih _ (no_lf_drop 76 h)]
        cases wrapLoop LF n (e.drop 76) with
        | none => rfl
        | some rest =>
          simp only [Option.map_some', crlfOf_append, crlfOf_LF,
            crlfOf_of_no_lf _ (no_lf_take 76 h)]
      · rfl
    · simp only [Option.map_some', crlfOf_of_no_lf e h]

theorem crlfOf_attachmentPayload (a : Attachment)
    (hdata : a.Inline = true → (0x0A : Byte) ∉ a.Data) :
    (attachmentPayload LF a).map crlfOf = attachmentPayload CRLF a := by
  unfold attachmentPayload
  split_ifs with hin
  · simp only [Option.map_some', crlfOf_of_no_lf _ (hdata hin)]
  · exact crlfOf_wrapLoop _ _ (fun h0 => (base64Encode_no_sep a.Data _ h0).1 rfl)

theorem crlfOf_attachmentHeader (env : Env) (a : Attachment)
    (htype : (0x0A : Byte) ∉ env.typeByExtension (Ext a.Filename)) :
    crlfOf (attachmentHeader env LF a) = attachmentHeader env CRLF a := by
  have l1 : crlfOf (str "Content-Type: message/rfc822") = str "Content-Type: message/rfc822" := by
    decide!
  have l2 : crlfOf (str "Content-Disposition: inline; filename=") =
      str "Content-Disposition: inline; filename=" := by decide!
  have l3 : crlfOf DQ = DQ := by decide!
  have l4 : crlfOf (str "Content-Type: ") = str "Content-Type: " := by decide!
  have l5 : crlfOf (str "Content-Transfer-Encoding: base64") =
      str "Content-Transfer-Encoding: base64" := by decide!
  have l6 : crlfOf (str "Content-Disposition: attachment;") =
      str "Content-Disposition: attachment;" := by decide!
  have l7 : crlfOf (str " filename=") = str " filename=" := by decide!
  have l8 : crlfOf (str "application/octet-stream") = str "application/octet-stream" := by
    decide!
  have htype0 : crlfOf (if env.typeByExtension (Ext a.Filename) = [] then
      str "application/octet-stream" else env.typeByExtension (Ext a.Filename)) =
      (if env.typeByExtension (Ext a.Filename) = [] then
      str "application/octet-stream" else env.typeByExtension (Ext a.Filename)) := by
    split_ifs
    · exact l8
    · exact crlfOf_of_no_lf _ htype
  unfold attachmentHeader
  split_ifs with hin
  · simp only [crlfOf_append, crlfOf_LF, crlfOf_encode, l1, l2, l3]
  · simp only [crlfOf_append, crlfOf_LF, crlfOf_encode, l3, l4, l5, l6, l7, htype0]

theorem crlfOf_writeAttachment (env : Env) (a : Attachment)
    (htype : (0x0A : Byte) ∉ env.typeByExtension (Ext a.Filename))
    (hdata : a.Inline = true → (0x0A : Byte) ∉ a.Data) :
    (writeAttachment env LF a).map crlfOf = writeAttachment env CRLF a := by
  have l1 : crlfOf (str "--") = str "--" := by decide!
  have l2 : crlfOf boundary = boundary := by decide!
  unfold writeAttachment
  rw [← crlfOf_attachmentPayload a hdata, ← crlfOf_attachmentHeader env a htype]
  cases attachmentPayload LF a with
  | none => rfl
  | some payload =>
    simp only [Option.map_some', crlfOf_append, crlfOf_LF, l1, l2]

theorem crlfOf_writeAttachments (env : Env) :
    ∀ atts : List Attachment,
      (∀ a ∈ atts, (0x0A : Byte) ∉ env.typeByExtension (Ext a.Filename) ∧
        (a.Inline = true → (0x0A : Byte) ∉ a.Data)) →
      (writeAttachments env LF atts).map crlfOf = writeAttachments env CRLF atts := by
  intro atts
  induction atts with
  | nil => intro _; rfl
  | cons a rest ih =>
    intro h
    obtain ⟨h1, h2⟩ := h a (List.mem_cons_self _ _)
    have hrest := ih (fun b hb => h b (List.mem_cons_of_mem _ hb))
    rw [writeAttachments, writeAttachments, ← crlfOf_writeAttachment env a h1 h2, ← hrest]
    cases writeAttachment env LF a with
    | none => rfl
    | some part =>
      cases writeAttachments env LF rest with
      | none => rfl
      | some parts => simp only [Option.map_some', crlfOf_append]

theorem no_lf_join (l : List Bytes) (h : ∀ r ∈ l, (0x0A : Byte) ∉ r) :
    (0x0A : Byte) ∉ join l (str ",") := by
  induction l with
  | nil => simp [join, List.intercalate]
  | cons a l ih =>
    have ha := h a (List.mem_cons_self _ _)
    have hrest := ih (fun r hr => h r (List.mem_cons_of_mem _ hr))
    cases l with
    | nil => simpa [join, List.intercalate] using ha
    | cons b l =>
      unfold join at hrest ⊢
      rw [intercalate_cons_cons _ _ _ (by simp)]
      simp only [List.mem_append, not_or]
      exact ⟨⟨ha, by decide!⟩, hrest⟩

theorem crlfOf_headers (env : Env) (m : Message)
    (hfrom : (0x0A : Byte) ∉ env.addressString m.From)
    (hdate : (0x0A : Byte) ∉ env.now)
    (hto : ∀ r ∈ m.To, (0x0A : Byte) ∉ r)
    (hcc : ∀ r ∈ m.Cc, (0x0A : Byte) ∉ r)
    (hreply : (0x0A : Byte) ∉ m.ReplyTo) :
    crlfOf (headers env LF m) = headers env CRLF m := by
  have l1 : crlfOf (str "From: ") = str "From: " := by decide!
  have l2 : crlfOf (str "Date: ") = str "Date: " := by decide!
  have l3 : crlfOf (str "To: ") = str "To: " := by decide!
  have l4 : crlfOf (str "Cc: ") = str "Cc: " := by decide!
  have l5 : crlfOf (str "Subject: ") = str "Subject: " := by decide!
  have l6 : crlfOf (str "Reply-To: ") = str "Reply-To: " := by decide!
  have l7 : crlfOf (str "MIME-Version: 1.0") = str "MIME-Version: 1.0" := by decide!
  unfold headers
  split_ifs <;>
    simp only [crlfOf_append, crlfOf_nil, crlfOf_LF, crlfOf_encode, l1, l2, l3, l4, l5, l6, l7,
      crlfOf_of_no_lf _ hfrom, crlfOf_of_no_lf _ hdate, crlfOf_of_no_lf _ (no_lf_join _ hto),
      crlfOf_of_no_lf _ (no_lf_join _ hcc), crlfOf_of_no_lf _ hreply]

/-- C11: when no LF occurs in the rendered From address, the date, the elements
of To and Cc, ReplyTo, BodyContentType, Body, the MIME types found for the
attachments and the data of inline attachments, `BytesCRLF` is `BytesLF` with
every LF replaced by CR LF, for the same environment (time included) and
attachment order; both fail together.  Subject and file names need no
condition: `encode` never writes an LF of theirs. -/
theorem crlf_parity (m : Message) (env : Env)
    (hfrom : (0x0A : Byte) ∉ env.addressString m.From)
    (hdate : (0x0A : Byte) ∉ env.now)
    (hto : ∀ r ∈ m.To, (0x0A : Byte) ∉ r)
    (hcc : ∀ r ∈ m.Cc, (0x0A : Byte) ∉ r)
    (hreply : (0x0A : Byte) ∉ m.ReplyTo)
    (hbct : (0x0A : Byte) ∉ m.BodyContentType)
    (hbody : (0x0A : Byte) ∉ m.Body)
    (hatt : ∀ a ∈ m.Attachments.map Prod.snd,
      (0x0A : Byte) ∉ env.typeByExtension (Ext a.Filename) ∧
      (a.Inline = true → (0x0A : Byte) ∉ a.Data)) :
    m.BytesCRLF env = (m.BytesLF env).map crlfOf := by
  have l1 : crlfOf (str "Content-Type: multipart/mixed; boundary=") =
      str "Content-Type: multipart/mixed; boundary=" := by decide!
  have l2 : crlfOf DQ = DQ := by decide!
  have l3 : crlfOf boundary = boundary := by decide!
  have l4 : crlfOf (str "--") = str "--" := by decide!
  have l5 : crlfOf (str "Content-Type: ") = str "Content-Type: " := by decide!
  have l6 : crlfOf (str "; charset=utf-8") = str "; charset=utf-8" := by decide!
  have hh := crlfOf_headers env m hfrom hdate hto hcc hreply
  have hw := crlfOf_writeAttachments env _ hatt
  unfold Message.BytesCRLF Message.BytesLF Message.bytes
  simp only []
  split_ifs with hlen
  · rw [← hw]
    cases writeAttachments env LF (m.Attachments.map Prod.snd) with
    | none => rfl
    | some parts =>
      simp only [Option.map_some', crlfOf_append, crlfOf_LF, hh, l1, l2, l3, l4, l5, l6,
        crlfOf_of_no_lf _ hbct, crlfOf_of_no_lf _ hbody]
  · simp only [Option.map_some', crlfOf_append, crlfOf_LF, hh, l5, l6,
      crlfOf_of_no_lf _ hbct, crlfOf_of_no_lf _ hbody]

/-- Scenario S1 (and S6) as an instance of C11. -/
theorem crlf_parity_witness :
    s1Msg.BytesLF testEnv = some s1Expected ∧
    s1Msg.BytesCRLF testEnv = some (crlfOf s1Expected) := by
  have hl : s1Msg.BytesLF testEnv = some s1Expected := by decide!
  have h := crlf_parity s1Msg testEnv (by decide!) (by decide!) (by decide!) (by decide!)
    (by decide!) (by decide!) (by decide!) (by decide!)
  exact ⟨hl, by rw [h, hl]; rfl⟩

/-! ## The encoded-word branch of `encode` -/

theorem hasPrefix_append (p s : Bytes) : hasPrefix (p ++ s) p = true := by
  induction p with
  | nil => cases s <;> rfl
  | cons a p ih => simp [hasPrefix, ih]

theorem indexByte_none {s : Bytes} {c : Byte} (h : indexByte s c = none) : c ∉ s := by
  induction s with
  | nil => simp
  | cons a s ih =>
    rw [indexByte] at h
    split_ifs at h with hac
    simp only [Option.map_eq_none'] at h
    simp only [List.mem_cons, not_or]
    exact ⟨fun hc => hac hc.symm, ih h⟩

theorem indexByte_some {s : Bytes} {c : Byte} :
    ∀ {i : Nat}, indexByte s c = some i →
      c ∉ s.take i ∧ s = s.take i ++ c :: s.drop (i + 1) := by
  induction s with
  | nil => intro i h; simp [indexByte] at h
  | cons a s ih =>
    intro i h
    rw [indexByte] at h
    split_ifs at h with hac
    · simp only [Option.some.injEq] at h
      subst h
      subst hac
      simp
    · simp only [Option.map_eq_some'] at h
      obtain ⟨j, hj, hij⟩ := h
      subst hij
      obtain ⟨h1, h2⟩ := ih hj
      constructor
      · simp only [List.take_succ_cons, List.mem_cons, not_or]
        exact ⟨fun hc => hac hc.symm, h1⟩
      · simp only [List.take_succ_cons, List.drop_succ_cons, List.cons_append]
        rw [← h2]

theorem replaceSpaces_append (sep x y : Bytes) :
    replaceSpaces sep (x ++ y) = replaceSpaces sep x ++ replaceSpaces sep y := by
  simp [replaceSpaces, List.flatMap_append]

theorem replaceSpaces_of_no_space (sep s : Bytes) (h : (0x20 : Byte) ∉ s) :
    replaceSpaces sep s = s := by
  induction s with
  | nil => rfl
  | cons a s ih =>
    have ha : a ≠ 0x20 := fun h0 => h (by rw [h0]; exact List.mem_cons_self _ _)
    have hs : (0x20 : Byte) ∉ s := fun h0 => h (List.mem_cons_of_mem _ h0)
    have := ih hs
    simp only [replaceSpaces, List.flatMap_cons, ha, if_false, List.singleton_append] at this ⊢
    rw [this]

theorem replaceSpaces_space_cons (sep s : Bytes) :
    replaceSpaces sep (0x20 :: s) = sep ++ [0x20] ++ replaceSpaces sep s := by
  simp [replaceSpaces, List.flatMap_cons]

/-- The first loop of `encode` replaces every space by the separator and a
space and leaves every other octet as it is. -/
theorem encodeWordsLoop_eq_replaceSpaces (sep : Bytes) :
    ∀ (fuel : Nat) (enc : Bytes), enc.length < fuel →
      encodeWordsLoop sep fuel enc = replaceSpaces sep enc := by
  have hsp : str " " = [0x20] := by decide
  intro fuel
  induction fuel with
  | zero => intro enc h; omega
  | succ n ih =>
    intro enc h
    rw [encodeWordsLoop]
    cases hi : indexByte enc 0x20 with
    | none => exact (replaceSpaces_of_no_space sep enc (indexByte_none hi)).symm
    | some i =>
      obtain ⟨h1, h2⟩ := indexByte_some hi
      have hlen : (enc.drop (i + 1)).length < n := by
        have hpos : 0 < enc.length := by
          cases enc with
          | nil => simp [indexByte] at hi
          | cons a s => simp
        simp only [List.length_drop]; omega
      simp only []
      rw [ih _ hlen, hsp]
      conv_rhs => rw [h2, replaceSpaces_append, replaceSpaces_space_cons,
        replaceSpaces_of_no_space sep _ h1]
      simp only [List.append_assoc]

theorem bEncodeLoop_chunks :
    ∀ (fuel currentLen : Nat) (pending rest : Bytes),
      rest.length < fuel → pending.length ≤ currentLen → currentLen ≤ maxBase64Len →
      ∃ chunks : List Bytes, chunks ≠ [] ∧
        bEncodeLoop fuel currentLen pending rest =
          splitWord.intercalate (chunks.map base64Encode) ∧
        chunks.flatten = pending ++ rest ∧
        ∀ c ∈ chunks, c.length ≤ maxBase64Len := by
  intro fuel
  induction fuel with
  | zero => intro _ _ rest h; omega
  | succ n ih =>
    intro currentLen pending rest hfuel hpend hcur
    rw [bEncodeLoop]
    cases rest with
    | nil =>
      refine ⟨[pending], by simp, ?_, by simp, ?_⟩
      · simp [intercalate_singleton]
      · intro c hc
        simp only [List.mem_singleton] at hc
        rw [hc]; omega
    | cons s0 t =>
      have hb := runeLen_bounds s0 t
      have hd : ((s0 :: t).drop (runeLen (s0 :: t))).length < n := by
        simp only [List.length_drop, List.length_cons] at hfuel ⊢; omega
      have htake : ((s0 :: t).take (runeLen (s0 :: t))).length ≤ runeLen (s0 :: t) :=
        List.length_take_le _ _
      simp only [List.isEmpty_cons, Bool.false_eq_true, if_false]
      split_ifs with hfit
      · obtain ⟨chunks, hne, hloop, hflat, hlen⟩ :=
          ih (currentLen + runeLen (s0 :: t)) (pending ++ (s0 :: t).take (runeLen (s0 :: t)))
            ((s0 :: t).drop (runeLen (s0 :: t))) hd
            (by rw [List.length_append]; omega) hfit
        refine ⟨chunks, hne, hloop, ?_, hlen⟩
        rw [hflat, List.append_assoc, List.take_append_drop]
      · have h45 : runeLen (s0 :: t) ≤ maxBase64Len := by
          have : maxBase64Len = 45 := by decide
          omega
        obtain ⟨chunks, hne, hloop, hflat, hlen⟩ :=
          ih (runeLen (s0 :: t)) ((s0 :: t).take (runeLen (s0 :: t)))
            ((s0 :: t).drop (runeLen (s0 :: t))) hd htake h45
        refine ⟨pending :: chunks, by simp, ?_, ?_, ?_⟩
        · rw [List.map_cons, intercalate_cons_cons _ _ _ (by simpa using hne), hloop]
        · rw [List.flatten_cons, hflat, List.take_append_drop]
        · intro c hc
          rcases List.mem_cons.1 hc with h | h
          · rw [h]; omega
          · exact hlen c h

theorem bEncode_chunks (s : Bytes) :
    ∃ chunks : List Bytes, chunks ≠ [] ∧
      bEncode s = splitWord.intercalate (chunks.map base64Encode) ∧
      chunks.flatten = s ∧ ∀ c ∈ chunks, c.length ≤ maxBase64Len := by
  unfold bEncode
  split_ifs with h
  · refine ⟨[s], by simp, by simp [intercalate_singleton], by simp, ?_⟩
    intro c hc
    simp only [List.mem_singleton] at hc
    subst hc
    have h1 : maxBase64Len = 45 := by decide
    have h2 : maxContentLen = 63 := by decide
    unfold EncodedLen at h
    omega
  · obtain ⟨chunks, hne, hloop, hflat, hlen⟩ :=
      bEncodeLoop_chunks (s.length + 1) 0 [] s (Nat.lt_succ_self _) (by simp) (by decide)
    exact ⟨chunks, hne, hloop, by simpa using hflat, hlen⟩

theorem words_intercalate (chunks : List Bytes) (hne : chunks ≠ []) :
    openWord ++ splitWord.intercalate (chunks.map base64Encode) ++ closeWord =
      ([0x20] : Bytes).intercalate (chunks.map encodedWord) := by
  have hsp : str " " = [0x20] := by decide
  induction chunks with
  | nil => exact absurd rfl hne
  | cons a chunks ih =>
    cases chunks with
    | nil => simp [intercalate_singleton, encodedWord]
    | cons b chunks =>
      have := ih (by simp)
      simp only [List.map_cons] at this ⊢
      rw [intercalate_cons_cons splitWord (base64Encode a) _ (by simp),
        intercalate_cons_cons [0x20] (encodedWord a) _ (by simp), ← this]
      simp only [encodedWord, splitWord, hsp, List.map_cons, List.append_assoc]

theorem encodedWord_no_space (chunk : Bytes) : (0x20 : Byte) ∉ encodedWord chunk := by
  have h64 : ∀ n, n < 64 → b64Char n ≠ 0x20 := by decide!
  have hopen : (0x20 : Byte) ∉ openWord := by decide!
  have hclose : (0x20 : Byte) ∉ closeWord := by decide!
  unfold encodedWord
  simp only [List.mem_append, not_or]
  refine ⟨⟨hopen, ?_⟩, hclose⟩
  intro h
  rcases base64Encode_mem chunk _ h with h1 | ⟨n, hn, h1⟩
  · exact absurd h1 (by decide)
  · exact h64 n hn h1.symm

theorem replaceSpaces_intercalate (sep : Bytes) (ws : List Bytes)
    (h : ∀ w ∈ ws, (0x20 : Byte) ∉ w) :
    replaceSpaces sep (([0x20] : Bytes).intercalate ws) = (sep ++ [0x20]).intercalate ws := by
  induction ws with
  | nil => rfl
  | cons a ws ih =>
    have ha := h a (List.mem_cons_self _ _)
    have hrest := ih (fun w hw => h w (List.mem_cons_of_mem _ hw))
    cases ws with
    | nil => simp [intercalate_singleton, replaceSpaces_of_no_space sep a ha]
    | cons b ws =>
      rw [intercalate_cons_cons [0x20] a _ (by simp),
        intercalate_cons_cons (sep ++ [0x20]) a _ (by simp),
        List.append_assoc, replaceSpaces_append, List.singleton_append,
        replaceSpaces_space_cons, hrest, replaceSpaces_of_no_space sep a ha]
      simp only [List.append_assoc]

theorem count_space_intercalate (ws : List Bytes) (hne : ws ≠ [])
    (h : ∀ w ∈ ws, (0x20 : Byte) ∉ w) :
    (([0x20] : Bytes).intercalate ws).count 0x20 = ws.length - 1 := by
  induction ws with
  | nil => exact absurd rfl hne
  | cons a ws ih =>
    have ha := h a (List.mem_cons_self _ _)
    cases ws with
    | nil => simp [intercalate_singleton, List.count_eq_zero.2 ha]
    | cons b ws =>
      have hrest := ih (by simp) (fun w hw => h w (List.mem_cons_of_mem _ hw))
      rw [intercalate_cons_cons [0x20] a _ (by simp), List.count_append, List.count_append,
        hrest, List.count_eq_zero.2 ha]
      simp only [List.count_singleton_self, List.length_cons]
      omega

theorem encodedWord_length_le (chunk : Bytes) (h : chunk.length ≤ maxBase64Len) :
    (encodedWord chunk).length ≤ 75 := by
  have h1 : maxBase64Len = 45 := by decide
  have h2 : openWord.length = 10 := by decide
  have h3 : closeWord.length = 2 := by decide
  unfold encodedWord
  simp only [List.length_append, base64Encode_length, h2, h3]
  unfold EncodedLen
  omega

/-- C17: for raw text that `mime.BEncoding` encodes, the result `e` is one or
more encoded-words `=?UTF-8?b?<base64>?=`, each without a space and at most 75
octets long, joined by single spaces; `encode` writes `e` with every space
replaced by the separator followed by one space and every other octet
unchanged, that is, the same words joined by the continuation, which is
therefore inserted once less than there are words. -/
theorem encode_words (raw : Bytes) (sep : Bytes) (h : needsEncoding raw = true) :
    encode raw sep = replaceSpaces sep (BEncodingEncode raw) ∧
    ∃ chunks : List Bytes, chunks ≠ [] ∧ chunks.flatten = raw ∧
      BEncodingEncode raw = ([0x20] : Bytes).intercalate (chunks.map encodedWord) ∧
      encode raw sep = (sep ++ [0x20]).intercalate (chunks.map encodedWord) ∧
      (∀ c ∈ chunks, (0x20 : Byte) ∉ encodedWord c ∧ (encodedWord c).length ≤ 75) ∧
      (BEncodingEncode raw).count 0x20 = (chunks.map encodedWord).length - 1 := by
  have hopen : str "=?UTF-8?b?" = openWord := rfl
  obtain ⟨chunks, hne, hchunks, hflat, hlen⟩ := bEncode_chunks raw
  have he : BEncodingEncode raw = ([0x20] : Bytes).intercalate (chunks.map encodedWord) := by
    unfold BEncodingEncode
    simp only [h, Bool.not_true, Bool.false_eq_true, if_false]
    rw [hchunks, words_intercalate chunks hne]
  have hpre : hasPrefix (BEncodingEncode raw) (str "=?UTF-8?b?") = true := by
    unfold BEncodingEncode
    simp only [h, Bool.not_true, Bool.false_eq_true, if_false]
    rw [hopen, List.append_assoc]
    exact hasPrefix_append _ _
  have hnosp : ∀ w ∈ chunks.map encodedWord, (0x20 : Byte) ∉ w := by
    intro w hw
    obtain ⟨c, _, rfl⟩ := List.mem_map.1 hw
    exact encodedWord_no_space c
  have henc : encode raw sep = replaceSpaces sep (BEncodingEncode raw) := by
    unfold encode
    simp only [hpre, if_true]
    exact encodeWordsLoop_eq_replaceSpaces sep _ _ (Nat.lt_succ_self _)
  refine ⟨henc, chunks, hne, hflat, he, ?_, ?_, ?_⟩
  · rw [henc, he, replaceSpaces_intercalate sep _ hnosp]
  · exact fun c hc => ⟨encodedWord_no_space c, encodedWord_length_le c (hlen c hc)⟩
  · rw [he]
    exact count_space_intercalate _ (by simpa using hne) hnosp

/-- The file name of `TestEncoding` as an instance of C17: two encoded-words,
one continuation. -/
theorem encode_words_witness :
    needsEncoding testFilename = true ∧
    BEncodingEncode testFilename =
      str "=?UTF-8?b?w6TDtsO8MTIzNDU2Nzg5MDEyMzQ1Njc4OTAxMjM0NTY3ODkwMTIzNDU2Nzg5?=" ++
      str " =?UTF-8?b?MDEyMzQ1Njc4OTAxMjM0NTY3ODkwMTIzNDU2Nzg5MC50eHQ=?=" ∧
    encode testFilename CRLF = replaceSpaces CRLF (BEncodingEncode testFilename) ∧
    ∃ chunks : List Bytes, chunks ≠ [] ∧ chunks.flatten = testFilename ∧
      BEncodingEncode testFilename = ([0x20] : Bytes).intercalate (chunks.map encodedWord) ∧
      encode testFilename CRLF = (CRLF ++ [0x20]).intercalate (chunks.map encodedWord) ∧
      (∀ c ∈ chunks, (0x20 : Byte) ∉ encodedWord c ∧ (encodedWord c).length ≤ 75) ∧
      (BEncodingEncode testFilename).count 0x20 = (chunks.map encodedWord).length - 1 :=
  ⟨by decide!, by decide!, encode_words testFilename CRLF (by decide!)⟩

end Email
